import Mathlib

/-!
Verification of the diff/patch engine of a CLI coding assistant.

The engine lives in `src/utils/diff-utils.ts` (diff generation, hunk
assembly, unified-diff formatting and parsing) and
`src/tools/code/apply-patch.ts` (patch application with exact and fuzzy
matching, dry-run, backup).  JavaScript strings are modelled as `List Char`
(`Str`), file contents as a single `Str`, and line arrays as `List Str`.
`Array.prototype.splice`, `String.prototype.split('\n')`, `join('\n')`,
`startsWith`, `substring` and the hunk-header regular expression are
modelled by explicit executable functions below.  `Math.max(0, a - b)` on
naturals is Nat subtraction.  File-system effects of the `apply_patch`
tool (`copyFile` backup, `writeFile`) are modelled as fields of the
`ExecPost` record returned by `execute`.
-/

set_option maxRecDepth 10000

/-- JavaScript strings, modelled as lists of characters. -/
abbrev Str := List Char

/-- Embed a Lean string literal as a `Str`. -/
def str (s : String) : Str := s.data

/-- JavaScript `s.split('\n')`: always returns a nonempty list of lines. -/
def splitNl : Str → List Str
  | [] => [[]]
  | c :: rest =>
    if c = '\n' then [] :: splitNl rest
    else
      match splitNl rest with
      | [] => [[c]]
      | l :: ls => (c :: l) :: ls

/-- JavaScript `lines.join('\n')`. -/
def joinNl : List Str → Str
  | [] => []
  | [l] => l
  | l :: l' :: ls => l ++ '\n' :: joinNl (l' :: ls)

/-- JavaScript `s.startsWith(pre)`. -/
def sw (s pre : Str) : Bool := decide (s.take pre.length = pre)

/-- JavaScript `s.trim()` (whitespace from both ends). -/
def trimWs (s : Str) : Str :=
  ((s.dropWhile Char.isWhitespace).reverse.dropWhile Char.isWhitespace).reverse

/-- The character of a decimal digit value. -/
def digitCh (d : Nat) : Char := Char.ofNat (48 + d)

/-- Fuelled digit recursion (the fuel only serves structural
termination; `natDec` supplies enough). -/
def natDecCore : Nat → Nat → Str
  | 0, _ => []
  | fuel + 1, n =>
    if n < 10 then [digitCh n]
    else natDecCore fuel (n / 10) ++ [digitCh (n % 10)]

/-- Decimal representation of a natural number (JavaScript `${n}` for a
natural). -/
def natDec (n : Nat) : Str := natDecCore (n + 1) n

/-- Numeric value of a list of decimal digit characters (JavaScript
`parseInt(digits, 10)`). -/
def digitsToNat (ds : List Char) : Nat :=
  ds.foldl (fun acc c => acc * 10 + (c.toNat - 48)) 0

/-- `xs.slice` region: `n` elements starting at index `a`. -/
def sliceN (xs : List Str) (a n : Nat) : List Str := (xs.drop a).take n

/-- JavaScript `lines[i]` (in-bounds in every reachable use). -/
def getLine (ls : List Str) (i : Nat) : Str := ls.getD i []

/-! ## Data model (`diff-utils.ts`) -/

/-- The `type` tag of a `DiffLine`. -/
inductive LineType where
  | add | remove | context
  deriving DecidableEq, Repr

/-- A content line of a hunk (`DiffLine` in `diff-utils.ts`; the optional
`lineNum` field is never set by this code and is omitted). -/
structure DiffLine where
  type : LineType
  content : Str
  deriving DecidableEq, Repr

/-- A hunk (`DiffHunk` in `diff-utils.ts`). -/
structure DiffHunk where
  oldStart : Nat
  oldLines : Nat
  newStart : Nat
  newLines : Nat
  lines : List DiffLine
  deriving DecidableEq, Repr

/-- A parsed patch (`ParsedDiff` in `diff-utils.ts`). -/
structure ParsedDiff where
  oldFile : Str
  newFile : Str
  hunks : List DiffHunk
  deriving DecidableEq, Repr

/-- The `type` tag of a change produced by `findChanges`. -/
inductive ChangeType where
  | add | remove | same
  deriving DecidableEq, Repr

/-- One element of the change list produced by `DiffUtils.findChanges`. -/
structure Change where
  type : ChangeType
  oldIdx : Nat
  newIdx : Nat
  deriving DecidableEq, Repr

/-! ## `DiffUtils.findChanges` -/

/-- The pure-addition tail of the `findChanges` loop (the
`oldIdx >= original.length` branch): every remaining modified line is an
add. -/
def addTail : List Str → Nat → Nat → List Change
  | [], _, _ => []
  | _ :: ms, oldIdx, newIdx =>
    ⟨.add, oldIdx, newIdx⟩ :: addTail ms oldIdx (newIdx + 1)

/-- The `while` loop of `DiffUtils.findChanges`: `os`/`ms` are the
unconsumed suffixes of the two line arrays and `oldIdx`/`newIdx` the
current indices.  In the mismatch branch the guard `newIdx <
modified.length` is always true, so a remove/add pair is emitted. -/
def findChangesAux : List Str → List Str → Nat → Nat → List Change
  | [], ms, oldIdx, newIdx => addTail ms oldIdx newIdx
  | _ :: os, [], oldIdx, newIdx =>
    ⟨.remove, oldIdx, newIdx⟩ :: findChangesAux os [] (oldIdx + 1) newIdx
  | o :: os, m :: ms, oldIdx, newIdx =>
    if o = m then
      ⟨.same, oldIdx, newIdx⟩ :: findChangesAux os ms (oldIdx + 1) (newIdx + 1)
    else
      ⟨.remove, oldIdx, newIdx⟩ :: ⟨.add, oldIdx + 1, newIdx⟩ ::
        findChangesAux os ms (oldIdx + 1) (newIdx + 1)

/-- `DiffUtils.findChanges`. -/
def findChanges (original modified : List Str) : List Change :=
  findChangesAux original modified 0 0

/-! ## `DiffUtils.groupIntoHunks` -/

/-- The loop body of `DiffUtils.groupIntoHunks`: walks the change list
carrying the open hunk (`cur`) and the closed hunks (`acc`).  The
lookahead `changes.slice(i + 1, i + contextLines + 1)` is the `take
contextLines` of the remaining changes.  `Math.max(0, idx - contextLines)`
is Nat subtraction. -/
def groupAux (original modified : List Str) (contextLines : Nat) :
    List Change → Option DiffHunk → List DiffHunk → List DiffHunk
  | [], cur, acc =>
    match cur with
    | none => acc
    | some h => acc ++ [h]
  | ch :: rest, cur, acc =>
    if ch.type = ChangeType.same then
      match cur with
      | none => groupAux original modified contextLines rest none acc
      | some h =>
        let h := { h with lines := h.lines ++ [⟨.context, getLine original ch.oldIdx⟩] }
        let hasMoreChanges := (rest.take contextLines).any fun c =>
          decide (c.type ≠ ChangeType.same)
        if hasMoreChanges then
          groupAux original modified contextLines rest (some h) acc
        else
          groupAux original modified contextLines rest none (acc ++ [h])
    else
      let h0 := match cur with
        | some h => h
        | none =>
          let oldStart := ch.oldIdx - contextLines
          let newStart := ch.newIdx - contextLines
          { oldStart := oldStart + 1, oldLines := 0,
            newStart := newStart + 1, newLines := 0,
            lines := (List.range' oldStart (ch.oldIdx - oldStart)).map fun j =>
              ⟨.context, getLine original j⟩ }
      let h1 :=
        if ch.type = ChangeType.remove then
          { h0 with lines := h0.lines ++ [⟨.remove, getLine original ch.oldIdx⟩],
                    oldLines := h0.oldLines + 1 }
        else
          { h0 with lines := h0.lines ++ [⟨.add, getLine modified ch.newIdx⟩],
                    newLines := h0.newLines + 1 }
      groupAux original modified contextLines rest (some h1) acc

/-- The final size fixup of `DiffUtils.groupIntoHunks`: each hunk's
context-line count is added to both `oldLines` and `newLines`. -/
def fixupHunk (h : DiffHunk) : DiffHunk :=
  let contextCount := (h.lines.filter fun l => decide (l.type = LineType.context)).length
  { h with oldLines := h.oldLines + contextCount,
           newLines := h.newLines + contextCount }

/-- `DiffUtils.groupIntoHunks`. -/
def groupIntoHunks (changes : List Change) (original modified : List Str)
    (contextLines : Nat) : List DiffHunk :=
  (groupAux original modified contextLines changes none []).map fixupHunk

/-! ## `DiffUtils.createUnifiedDiff` -/

/-- The `@@ -a,b +c,d @@` header line formatted for a hunk. -/
def hunkHeader (h : DiffHunk) : Str :=
  str "@@ -" ++ natDec h.oldStart ++ str "," ++ natDec h.oldLines ++
  str " +" ++ natDec h.newStart ++ str "," ++ natDec h.newLines ++ str " @@"

/-- One formatted content line: its single-character prefix then the
content. -/
def fmtLine (l : DiffLine) : Str :=
  match l.type with
  | .context => ' ' :: l.content
  | .remove => '-' :: l.content
  | .add => '+' :: l.content

/-- The formatted text lines of one hunk: header then prefixed content. -/
def formatHunk (h : DiffHunk) : List Str :=
  hunkHeader h :: h.lines.map fmtLine

/-- `DiffUtils.createUnifiedDiff` (returns the patch text; `''` when the
change list is empty — a branch that is in fact unreachable). -/
def createUnifiedDiff (original modified : Str) (filename : Str)
    (contextLines : Nat) : Str :=
  let originalLines := splitNl original
  let modifiedLines := splitNl modified
  let changes := findChanges originalLines modifiedLines
  if changes.length = 0 then []
  else
    let hunks := groupIntoHunks changes originalLines modifiedLines contextLines
    joinNl ((str "--- a/" ++ filename) :: (str "+++ b/" ++ filename) ::
      (hunks.map formatHunk).flatten)

/-! ## `DiffUtils.parseDiff` -/

/-- Greedy `\d+` at the head of the input: the digit run and the rest, or
failure when no digit is present. -/
def readNat (s : Str) : Option (Nat × Str) :=
  let ds := s.takeWhile Char.isDigit
  if ds.isEmpty then none
  else some (digitsToNat ds, s.dropWhile Char.isDigit)

/-- Literal expected at the head of the input. -/
def expectLit (lit s : Str) : Option Str :=
  if s.take lit.length = lit then some (s.drop lit.length) else none

/-- Attempt of the hunk-header regular expression
`@@ -(\d+),(\d+) \+(\d+),(\d+) @@` at the start of `s` (trailing
characters are allowed, as with an unanchored regex). -/
def matchHeaderAt (s : Str) : Option (Nat × Nat × Nat × Nat) :=
  match expectLit (str "@@ -") s with
  | none => none
  | some s =>
  match readNat s with
  | none => none
  | some (a, s) =>
  match expectLit (str ",") s with
  | none => none
  | some s =>
  match readNat s with
  | none => none
  | some (b, s) =>
  match expectLit (str " +") s with
  | none => none
  | some s =>
  match readNat s with
  | none => none
  | some (c, s) =>
  match expectLit (str ",") s with
  | none => none
  | some s =>
  match readNat s with
  | none => none
  | some (d, s) =>
  match expectLit (str " @@") s with
  | none => none
  | some _ => some (a, b, c, d)

/-- Leftmost match of the hunk-header regular expression anywhere in the
line (JavaScript `line.match(...)`). -/
def findHeader : Str → Option (Nat × Nat × Nat × Nat)
  | [] => none
  | c :: rest =>
    match matchHeaderAt (c :: rest) with
    | some r => some r
    | none => findHeader rest

/-- Append a content line to the open hunk of `parseDiff`. -/
def pushLine (h : DiffHunk) (t : LineType) (content : Str) : DiffHunk :=
  { h with lines := h.lines ++ [⟨t, content⟩] }

/-- The line loop of `DiffUtils.parseDiff`: state is `(oldFile, newFile,
currentHunk, hunks)`.  Header checks come before content classification;
lines with no recognized prefix are skipped. -/
def parseAux : List Str → Str → Str → Option DiffHunk → List DiffHunk →
    Str × Str × List DiffHunk
  | [], oldF, newF, cur, hunks =>
    (oldF, newF, hunks ++ cur.toList)
  | l :: rest, oldF, newF, cur, hunks =>
    if sw l (str "---") then
      parseAux rest (trimWs (l.drop 4)) newF cur hunks
    else if sw l (str "+++") then
      parseAux rest oldF (trimWs (l.drop 4)) cur hunks
    else if sw l (str "@@") then
      match findHeader l with
      | some (a, b, c, d) =>
        parseAux rest oldF newF (some ⟨a, b, c, d, []⟩) (hunks ++ cur.toList)
      | none => parseAux rest oldF newF cur hunks
    else
      match cur with
      | none => parseAux rest oldF newF none hunks
      | some h =>
        if sw l (str "+") then
          parseAux rest oldF newF (some (pushLine h .add (l.drop 1))) hunks
        else if sw l (str "-") then
          parseAux rest oldF newF (some (pushLine h .remove (l.drop 1))) hunks
        else if sw l (str " ") then
          parseAux rest oldF newF (some (pushLine h .context (l.drop 1))) hunks
        else
          parseAux rest oldF newF (some h) hunks

/-- `DiffUtils.parseDiff`: `none` models the `null` (invalid format)
result, returned exactly when no hunk was collected. -/
def parseDiff (diffText : Str) : Option ParsedDiff :=
  let r := parseAux (splitNl diffText) [] [] none []
  if r.2.2.length = 0 then none
  else some ⟨r.1, r.2.1, r.2.2⟩

/-! ## `apply-patch.ts` -/

/-- `matchesAt`: do the expected lines occur contiguously at `startIndex`?
The index is an `Int` because `hunk.oldStart - 1` may be `-1` in
JavaScript. -/
def matchesAt (lines expected : List Str) (startIndex : Int) : Bool :=
  if startIndex < 0 ∨ (lines.length : Int) < startIndex + expected.length then
    false
  else
    (List.range expected.length).all fun i =>
      decide (lines.getD (startIndex.toNat + i) [] = expected.getD i [])

/-- JavaScript `result.splice(start, deleteCount, ...items)` on a copy. -/
def splice (lines : List Str) (start deleteCount : Nat) (items : List Str) :
    List Str :=
  lines.take start ++ items ++ lines.drop (start + deleteCount)

/-- The `expectedLines` extracted from a hunk by `applyHunk` (remove +
context in normal mode; add + context in reverse mode). -/
def hunkExpected (h : DiffHunk) (reverse : Bool) : List Str :=
  (h.lines.filter fun l =>
    decide (l.type = (if reverse then LineType.add else LineType.remove)) ||
    decide (l.type = LineType.context)).map DiffLine.content

/-- The `newLines` extracted from a hunk by `applyHunk`. -/
def hunkNew (h : DiffHunk) (reverse : Bool) : List Str :=
  (h.lines.filter fun l =>
    decide (l.type = (if reverse then LineType.remove else LineType.add)) ||
    decide (l.type = LineType.context)).map DiffLine.content

/-- Result of `applyHunk` (the error message is not modelled; `success =
false` stands for the conflict result). -/
structure HunkResult where
  success : Bool
  lines : List Str
  deriving DecidableEq, Repr

/-- The offsets `-50, -49, …, 50` tried by the fuzzy-matching loop, in
loop order (`searchRange` is hardcoded to 50). -/
def offsets50 : List Int := (List.range 101).map fun i => (i : Int) - 50

/-- The fuzzy-matching `for` loop of `applyHunk`: first offset (in list
order) whose position is nonnegative and matches wins. -/
def fuzzySearch (lines expected newL : List Str) (targetLine : Int) :
    List Int → HunkResult
  | [] => ⟨false, lines⟩
  | o :: os =>
    let testLocation := targetLine + o
    if 0 ≤ testLocation ∧ matchesAt lines expected testLocation then
      ⟨true, splice lines testLocation.toNat expected.length newL⟩
    else
      fuzzySearch lines expected newL targetLine os

/-- `applyHunk` from `apply-patch.ts`. -/
def applyHunk (lines : List Str) (hunk : DiffHunk) (reverse fuzzy : Bool) :
    HunkResult :=
  let targetLine : Int := (hunk.oldStart : Int) - 1
  let expected := hunkExpected hunk reverse
  let newL := hunkNew hunk reverse
  if matchesAt lines expected targetLine then
    ⟨true, splice lines targetLine.toNat expected.length newL⟩
  else if fuzzy then
    fuzzySearch lines expected newL targetLine offsets50
  else
    ⟨false, lines⟩

/-- The hunk loop of `execute`: returns the final lines and the
success/failure counts, processing hunks in the order they occur in the
parsed patch. -/
def applyLoop (reverse fuzzy : Bool) :
    List DiffHunk → List Str → List Str × Nat × Nat
  | [], lines => (lines, 0, 0)
  | h :: hs, lines =>
    let res := applyHunk lines h reverse fuzzy
    if res.success then
      let r := applyLoop reverse fuzzy hs res.lines
      (r.1, r.2.1 + 1, r.2.2)
    else
      let r := applyLoop reverse fuzzy hs lines
      (r.1, r.2.1, r.2.2 + 1)

/-- Input parameters of the `apply_patch` tool (schema defaults:
`reverse = false`, `dry_run = false`, `backup = true`, `fuzzy = true`). -/
structure ApplyParams where
  patch : Str
  reverse : Bool := false
  dry_run : Bool := false
  backup : Bool := true
  fuzzy : Bool := true
  deriving DecidableEq, Repr

/-- Observable outcome of one `execute` call of `apply_patch`: the result
status, whether the `.bak` copy was made, the content written to the
target (if any write happened), and the hunk accounting. -/
structure ExecPost where
  success : Bool
  backupMade : Bool
  written : Option Str
  applied : Nat
  failed : Nat
  deriving DecidableEq, Repr

/-- `execute` from `apply-patch.ts`, as a function of the parameters, the
target file's existence, and its current content.  Path resolution and
the preview/summary text are not modelled; the backup `copyFile` happens
before the hunk loop, the strict-mode rejection before `writeFile`. -/
def execute (p : ApplyParams) (fileExists : Bool) (content : Str) : ExecPost :=
  match parseDiff p.patch with
  | none => ⟨false, false, none, 0, 0⟩
  | some pd =>
    if fileExists = false then ⟨false, false, none, 0, 0⟩
    else
      let lines := splitNl content
      let backupMade := p.backup && !p.dry_run
      let r := applyLoop p.reverse p.fuzzy pd.hunks lines
      let successCount := r.2.1
      let failCount := r.2.2
      if 0 < failCount ∧ p.fuzzy = false then
        ⟨false, backupMade, none, successCount, failCount⟩
      else
        let modifiedContent := joinNl r.1
        ⟨true, backupMade,
          if p.dry_run then none else some modifiedContent,
          successCount, failCount⟩

/-! ## Spec-side reference definitions

The following definitions follow the SPECIFICATION's words (not the
code); they exist only to compare the code against the spec's described
algorithm for claims C3 and C4. -/

/-- Modelled from the spec: the fuzzy-search offset order
"smallest absolute offset first, on ties preferring the more negative
offset": `0, -1, 1, -2, 2, …, -50, 50`. -/
def specOffsets : List Int :=
  0 :: ((List.range 50).map fun k => [-((k : Int) + 1), (k : Int) + 1]).flatten

/-- Modelled from the spec: `applyHunk` exactly as the code has it except
that the fuzzy loop tries offsets in the spec's
smallest-absolute-value-first order. -/
def applyHunkSpecOrder (lines : List Str) (hunk : DiffHunk)
    (reverse fuzzy : Bool) : HunkResult :=
  let targetLine : Int := (hunk.oldStart : Int) - 1
  let expected := hunkExpected hunk reverse
  let newL := hunkNew hunk reverse
  if matchesAt lines expected targetLine then
    ⟨true, splice lines targetLine.toNat expected.length newL⟩
  else if fuzzy then
    fuzzySearch lines expected newL targetLine specOffsets
  else
    ⟨false, lines⟩

/-- Modelled from the spec: one hunk attempted at an explicitly supplied
candidate position (`hunk.oldStart - 1 + runningOffset`). -/
def applyHunkAtSpec (lines : List Str) (hunk : DiffHunk)
    (reverse fuzzy : Bool) (candidate : Int) : HunkResult :=
  let expected := hunkExpected hunk reverse
  let newL := hunkNew hunk reverse
  if matchesAt lines expected candidate then
    ⟨true, splice lines candidate.toNat expected.length newL⟩
  else if fuzzy then
    fuzzySearch lines expected newL candidate offsets50
  else
    ⟨false, lines⟩

/-- Modelled from the spec: the per-hunk loop maintaining a running
line-offset accumulated from prior hunks' net length delta, each hunk's
exact-match attempt made at `oldStart - 1 + runningOffset`. -/
def applyLoopSpec (reverse fuzzy : Bool) :
    List DiffHunk → List Str → Int → List Str × Nat × Nat
  | [], lines, _ => (lines, 0, 0)
  | h :: hs, lines, off =>
    let res := applyHunkAtSpec lines h reverse fuzzy ((h.oldStart : Int) - 1 + off)
    if res.success then
      let delta : Int := ((hunkNew h reverse).length : Int) -
        ((hunkExpected h reverse).length : Int)
      let r := applyLoopSpec reverse fuzzy hs res.lines (off + delta)
      (r.1, r.2.1 + 1, r.2.2)
    else
      let r := applyLoopSpec reverse fuzzy hs lines off
      (r.1, r.2.1, r.2.2 + 1)

/-- Modelled from the spec: the whole apply call, processing hunks in
ascending `oldStart` order with the running offset of `applyLoopSpec`
(everything else as in the code's `execute`). -/
def executeSpecC3 (p : ApplyParams) (fileExists : Bool) (content : Str) :
    ExecPost :=
  match parseDiff p.patch with
  | none => ⟨false, false, none, 0, 0⟩
  | some pd =>
    if fileExists = false then ⟨false, false, none, 0, 0⟩
    else
      let lines := splitNl content
      let backupMade := p.backup && !p.dry_run
      let sorted := pd.hunks.insertionSort fun a b => a.oldStart ≤ b.oldStart
      let r := applyLoopSpec p.reverse p.fuzzy sorted lines 0
      if 0 < r.2.2 ∧ p.fuzzy = false then
        ⟨false, backupMade, none, r.2.1, r.2.2⟩
      else
        ⟨true, backupMade,
          if p.dry_run then none else some (joinNl r.1), r.2.1, r.2.2⟩

/-! ## Concrete inputs used by counterexamples and witnesses -/

/-- Target lines for the C4 counterexample: the expected line `m` occurs
at offsets `-3` and `+1` from the candidate position 4 and nowhere else. -/
def c4lines : List Str := [str "z", str "m", str "z", str "z", str "z", str "m", str "z"]

/-- Hunk for the C4 counterexample: replace the `m` recorded at line 5. -/
def c4hunk : DiffHunk := ⟨5, 1, 5, 1, [⟨.remove, str "m"⟩, ⟨.add, str "Q"⟩]⟩

/-- A two-hunk patch whose first hunk grows the file by one line, so that
the second hunk's content sits one line below its recorded position. -/
def c3patch : Str :=
  str "--- a/f\n+++ b/f\n@@ -1,1 +1,2 @@\n-a\n+A\n+A2\n@@ -8,1 +9,1 @@\n-x\n+X"

/-- Target content for the C3 counterexample. -/
def c3content : Str := str "a\nb\nc\nd\ne\nf\ng\nx"

/-- Hunk used by the witnesses of C3's amended claim. -/
def c3wHunk : DiffHunk := ⟨1, 1, 1, 1, [⟨.remove, str "a"⟩, ⟨.add, str "b"⟩]⟩

/-- Hunk used by the witness of C4's amended claim. -/
def c4wHunk : DiffHunk := ⟨1, 1, 1, 1, [⟨.remove, str "m"⟩, ⟨.add, str "n"⟩]⟩

/-- Original lines of the C5 gap family: one changed line, a gap of `g`
unchanged lines, another changed line. -/
def gapO (g : Nat) : List Str := str "x" :: List.replicate g (str "a") ++ [str "y"]

/-- Modified lines of the C5 gap family. -/
def gapM (g : Nat) : List Str := str "X" :: List.replicate g (str "a") ++ [str "Y"]

/-- A run of `g` Same changes at aligned indices `p, p+1, …`. -/
def sames (g p : Nat) : List Change :=
  (List.range' p g).map fun k => ⟨ChangeType.same, k, k⟩

/-- A patch whose single hunk expects a line `zzz` that the target does
not contain anywhere. -/
def noMatchPatch : Str := str "--- a/f\n+++ b/f\n@@ -1,1 +1,1 @@\n-zzz\n+www"

/-- `apply_patch` parameters: the never-matching patch with fuzzy
matching disabled (strict mode). -/
def strictNoMatch : ApplyParams := { patch := noMatchPatch, fuzzy := false }

/-- `apply_patch` parameters: the never-matching patch with default
options (fuzzy enabled). -/
def fuzzyNoMatch : ApplyParams := { patch := noMatchPatch }

/-- A line that creates a hunk during parsing: it reaches the `@@`
branch (its first two characters are `@@`; such a line can start with
neither `---` nor `+++`) and its header regex match succeeds. -/
def isHeaderLine (l : Str) : Bool := sw l (str "@@") && (findHeader l).isSome

/-- Semantic characterization of `findChangesAux` output as an inductive
relation: `Script O M p q cs` holds when `cs` is the change list the scan
produces from positions `p`/`q` of `O`/`M`.  The `diff` constructor
mirrors the mismatch branch, which emits a remove/add pair at once. -/
inductive Script (O M : List Str) : Nat → Nat → List Change → Prop where
  | nil (p q : Nat) : O.length ≤ p → M.length ≤ q → Script O M p q []
  | add (p q : Nat) (cs : List Change) : O.length ≤ p → q < M.length →
      Script O M p (q + 1) cs → Script O M p q (⟨.add, p, q⟩ :: cs)
  | rem (p q : Nat) (cs : List Change) : p < O.length → M.length ≤ q →
      Script O M (p + 1) q cs → Script O M p q (⟨.remove, p, q⟩ :: cs)
  | same (p q : Nat) (cs : List Change) : p < O.length → q < M.length →
      O.getD p [] = M.getD q [] → Script O M (p + 1) (q + 1) cs →
      Script O M p q (⟨.same, p, q⟩ :: cs)
  | diff (p q : Nat) (cs : List Change) : p < O.length → q < M.length →
      O.getD p [] ≠ M.getD q [] → Script O M (p + 1) (q + 1) cs →
      Script O M p q (⟨.remove, p, q⟩ :: ⟨.add, p + 1, q⟩ :: cs)

/-- A hunk list correctly covers the remaining region of the two files:
before the first hunk the files agree (positions aligned at `p = q`),
each hunk's expected lines are the original slice at `oldStart - 1` and
its new lines the modified slice there, and past the last covered
position the remaining suffixes agree. -/
inductive Covers (O M : List Str) : Nat → Nat → List DiffHunk → Prop where
  | nil (p q : Nat) : O.drop p = M.drop q → Covers O M p q []
  | cons (p : Nat) (h : DiffHunk) (hs : List DiffHunk) (eLen nLen : Nat)
      (hstart : 1 ≤ h.oldStart)
      (hps : p ≤ h.oldStart - 1)
      (hgap : (O.drop p).take (h.oldStart - 1 - p) =
        (M.drop p).take (h.oldStart - 1 - p))
      (hexp : hunkExpected h false = (O.drop (h.oldStart - 1)).take eLen)
      (heb : h.oldStart - 1 + eLen ≤ O.length)
      (hnew : hunkNew h false = (M.drop (h.oldStart - 1)).take nLen)
      (hnb : h.oldStart - 1 + nLen ≤ M.length)
      (rest : Covers O M (h.oldStart - 1 + eLen) (h.oldStart - 1 + nLen) hs) :
      Covers O M p p (h :: hs)

/-- Invariant of the scan state while no hunk is open: the boundary `x`
(end of the region already covered by emitted hunks) is behind the
current position `p`, the two files agree on `[x, p)`, and — unless we
are at the very start — at least `C` Same ops separate `x` from the next
change (the closing condition guarantees this). -/
structure NoneInv (O M : List Str) (C x p : Nat) (cs : List Change) : Prop where
  hxp : x ≤ p
  heq : (O.drop x).take (p - x) = (M.drop x).take (p - x)
  hpO : p ≤ O.length
  hpM : p ≤ M.length
  hguard : x = 0 ∨
    ((cs.take (C - (p - x))).all fun c => decide (c.type = ChangeType.same)) = true

/-- Invariant of the open hunk while scanning a cluster: the hunk starts
at `a = oldStart - 1 ≥ x`, its expected lines collected so far are the
original slice `[a, p)` and its new lines the modified slice `[a, q)`. -/
structure OpenInv (O M : List Str) (x p q : Nat) (h : DiffHunk) : Prop where
  hstart : 1 ≤ h.oldStart
  hsame : h.newStart = h.oldStart
  hxa : x ≤ h.oldStart - 1
  hap : h.oldStart - 1 ≤ p
  haq : h.oldStart - 1 ≤ q
  hgap : (O.drop x).take (h.oldStart - 1 - x) =
    (M.drop x).take (h.oldStart - 1 - x)
  hexp : hunkExpected h false = (O.drop (h.oldStart - 1)).take (p - (h.oldStart - 1))
  hnew : hunkNew h false = (M.drop (h.oldStart - 1)).take (q - (h.oldStart - 1))
  hpO : p ≤ O.length
  hqM : q ≤ M.length

-- THEOREMS BELOW THIS LINE --

/-! ## Shape lemmas for `execute` -/

/-- `execute` with an unparseable patch: failure, no effects. -/
theorem execute_parse_none (p : ApplyParams) (fe : Bool) (content : Str)
    (hpd : parseDiff p.patch = none) :
    execute p fe content = ⟨false, false, none, 0, 0⟩ := by
  unfold execute; rw [hpd]

/-- `execute` on a missing file: failure, no effects. -/
theorem execute_no_file (p : ApplyParams) (content : Str) (pd : ParsedDiff)
    (hpd : parseDiff p.patch = some pd) :
    execute p false content = ⟨false, false, none, 0, 0⟩ := by
  unfold execute; rw [hpd]; rfl

/-- `execute` on an existing file with a parsed patch, as a single
conditional over the hunk-loop outcome. -/
theorem execute_main (p : ApplyParams) (content : Str) (pd : ParsedDiff)
    (hpd : parseDiff p.patch = some pd) :
    execute p true content =
      (if 0 < (applyLoop p.reverse p.fuzzy pd.hunks (splitNl content)).2.2 ∧
          p.fuzzy = false then
        ⟨false, p.backup && !p.dry_run, none,
          (applyLoop p.reverse p.fuzzy pd.hunks (splitNl content)).2.1,
          (applyLoop p.reverse p.fuzzy pd.hunks (splitNl content)).2.2⟩
      else
        ⟨true, p.backup && !p.dry_run,
          if p.dry_run then none
          else some (joinNl (applyLoop p.reverse p.fuzzy pd.hunks (splitNl content)).1),
          (applyLoop p.reverse p.fuzzy pd.hunks (splitNl content)).2.1,
          (applyLoop p.reverse p.fuzzy pd.hunks (splitNl content)).2.2⟩) := by
  unfold execute; rw [hpd]; rfl

/-! ## Claim C2 -/

/-- Claim C2 (confirmed): with fuzzy matching disabled, if at least one
hunk fails to match, `execute` returns a conflict failure and performs no
write (the target content is untouched, even when other hunks matched). -/
theorem C2_strict_reject (p : ApplyParams) (fe : Bool) (content : Str)
    (hf : p.fuzzy = false) (hfail : 0 < (execute p fe content).failed) :
    (execute p fe content).success = false ∧ (execute p fe content).written = none := by
  cases hpd : parseDiff p.patch with
  | none =>
    rw [execute_parse_none p fe content hpd] at hfail
    exact absurd hfail (by simp)
  | some pd =>
    cases fe with
    | false =>
      rw [execute_no_file p content pd hpd] at hfail
      exact absurd hfail (by simp)
    | true =>
      rw [execute_main p content pd hpd] at hfail ⊢
      by_cases hc : 0 < (applyLoop p.reverse p.fuzzy pd.hunks (splitNl content)).2.2 ∧
          p.fuzzy = false
      · rw [if_pos hc]
        exact ⟨rfl, rfl⟩
      · rw [if_neg hc] at hfail
        exact absurd ⟨hfail, hf⟩ hc

/-- Witness for C2 at a concrete conflicting strict-mode call. -/
theorem C2_strict_reject_witness :
    0 < (execute strictNoMatch true (str "x")).failed ∧
    (execute strictNoMatch true (str "x")).success = false ∧
    (execute strictNoMatch true (str "x")).written = none :=
  ⟨by decide, C2_strict_reject strictNoMatch true (str "x") rfl (by decide)⟩

/-! ## Claim C10 -/

/-- Claim C10 (confirmed): with backup enabled and not in dry-run mode,
on an existing file with a parseable patch, the `.bak` backup copy is
made unconditionally — before the hunk loop — so it happens no matter how
many hunks conflict and even when strict mode then rejects the apply. -/
theorem C10_backup_before_apply (p : ApplyParams) (content : Str)
    (hb : p.backup = true) (hd : p.dry_run = false)
    (hpd : (parseDiff p.patch).isSome = true) :
    (execute p true content).backupMade = true := by
  rcases Option.isSome_iff_exists.mp hpd with ⟨pd, hpd'⟩
  rw [execute_main p content pd hpd']
  by_cases hc : 0 < (applyLoop p.reverse p.fuzzy pd.hunks (splitNl content)).2.2 ∧
      p.fuzzy = false
  · rw [if_pos hc]; simp [hb, hd]
  · rw [if_neg hc]; simp [hb, hd]

/-- Witness for C10: a strict-mode call in which every hunk conflicts and
the call fails, yet the backup side effect happened. -/
theorem C10_backup_before_apply_witness :
    (execute strictNoMatch true (str "x")).backupMade = true ∧
    (execute strictNoMatch true (str "x")).success = false :=
  ⟨C10_backup_before_apply strictNoMatch (str "x") rfl rfl (by decide), by decide⟩

/-! ## Claim C9 -/

/-- Counterexample to claim C9: an apply in which zero hunks succeed
(fuzzy mode, the only hunk conflicts) still writes the file — the claim
says no write may occur then.  The written content merely equals the
original. -/
theorem C9_counterexample :
    (execute fuzzyNoMatch true (str "x")).applied = 0 ∧
    (execute fuzzyNoMatch true (str "x")).written = some (str "x") := by decide

/-- Claim C9, amended: a write happens exactly when the call succeeds and
dry-run was not requested (success does not require any hunk to have
applied: a fuzzy-mode call with zero applied hunks still writes, with
content equal to the original); dry runs never persist. -/
theorem C9_write_condition_amended (p : ApplyParams) (fe : Bool) (content : Str) :
    (execute p fe content).written.isSome =
      ((execute p fe content).success && !p.dry_run) := by
  cases hpd : parseDiff p.patch with
  | none => rw [execute_parse_none p fe content hpd]; rfl
  | some pd =>
    cases fe with
    | false => rw [execute_no_file p content pd hpd]; rfl
    | true =>
      rw [execute_main p content pd hpd]
      by_cases hc : 0 < (applyLoop p.reverse p.fuzzy pd.hunks (splitNl content)).2.2 ∧
          p.fuzzy = false
      · rw [if_pos hc]; rfl
      · rw [if_neg hc]
        cases p.dry_run <;> rfl

/-! ## Claim C1 counterexample -/

/-- Counterexample to claim C1: for original `"--a\nb"` and modified
`"b"`, the removed line `--a` formats as `---a`, which the parser consumes
as a `---` header line, losing the removal; the surviving hunk then
fuzzy-applies as a no-op and the round trip returns the original, not the
modified text (and reports success). -/
theorem C1_counterexample :
    (execute { patch := createUnifiedDiff (str "--a\nb") (str "b") (str "file") 3 }
      true (str "--a\nb")).written = some (str "--a\nb") ∧
    (execute { patch := createUnifiedDiff (str "--a\nb") (str "b") (str "file") 3 }
      true (str "--a\nb")).success = true ∧
    str "--a\nb" ≠ str "b" := by decide

/-! ## Claim C5 counterexample -/

/-- Counterexample to claim C5: with context size 3, two change clusters
separated by a gap of 4 Same ops (4 ≤ 2×3, so the claim requires a single
merged hunk) are emitted as two separate hunks. -/
theorem C5_counterexample :
    findChanges (splitNl (str "x\na\nb\nc\nd\ny")) (splitNl (str "X\na\nb\nc\nd\nY")) =
      [⟨.remove, 0, 0⟩, ⟨.add, 1, 0⟩, ⟨.same, 1, 1⟩, ⟨.same, 2, 2⟩,
       ⟨.same, 3, 3⟩, ⟨.same, 4, 4⟩, ⟨.remove, 5, 5⟩, ⟨.add, 6, 5⟩] ∧
    (groupIntoHunks
      (findChanges (splitNl (str "x\na\nb\nc\nd\ny")) (splitNl (str "X\na\nb\nc\nd\nY")))
      (splitNl (str "x\na\nb\nc\nd\ny")) (splitNl (str "X\na\nb\nc\nd\nY")) 3).length = 2 := by
  decide

/-! ## Claim C6 counterexample -/

/-- Counterexample to claim C6: a patch containing a content line with no
recognized prefix (`xhello`) parses successfully — the line is silently
skipped — where the claim requires an InvalidFormat failure. -/
theorem C6_counterexample :
    parseDiff (str "--- a/f\n+++ b/f\n@@ -1,1 +1,1 @@\nxhello") ≠ none := by decide

/-! ## Claim C7 counterexample -/

/-- Counterexample to claim C7: generating a diff of `"x"` against itself
yields zero hunks, but the formatted document is the two header lines,
not the empty string. -/
theorem C7_counterexample :
    groupIntoHunks (findChanges (splitNl (str "x")) (splitNl (str "x")))
      (splitNl (str "x")) (splitNl (str "x")) 3 = [] ∧
    createUnifiedDiff (str "x") (str "x") (str "file") 3 ≠ [] := by decide

/-! ## Claim C8 -/

/-- Counterexample to claim C8: for the empty original and modified
`"hello"`, the generated hunk does not have `oldLines = 0` and
`newLines = 1` — the empty file splits into one empty line, which the
hunk removes. -/
theorem C8_counterexample :
    ((groupIntoHunks (findChanges (splitNl (str "")) (splitNl (str "hello")))
      (splitNl (str "")) (splitNl (str "hello")) 3).map fun h =>
        (h.oldLines, h.newLines)) ≠ [(0, 1)] := by decide

/-- Claim C8, amended: the pure-addition example yields exactly one hunk
with `oldStart = 1, oldLines = 1, newStart = 1, newLines = 1` (the empty
original is one empty line, removed by the hunk), and applying the
generated patch to the empty file yields `"hello"`. -/
theorem C8_empty_file_amended :
    ((groupIntoHunks (findChanges (splitNl (str "")) (splitNl (str "hello")))
      (splitNl (str "")) (splitNl (str "hello")) 3).map fun h =>
        (h.oldStart, h.oldLines, h.newStart, h.newLines)) = [(1, 1, 1, 1)] ∧
    (execute { patch := createUnifiedDiff (str "") (str "hello") (str "file") 3 }
      true (str "")).written = some (str "hello") ∧
    (execute { patch := createUnifiedDiff (str "") (str "hello") (str "file") 3 }
      true (str "")).success = true := by decide

/-! ## Claims C3 and C4: the fuzzy loop and hunk positioning -/

/-- On a sorted offset list, the fuzzy loop stops at the least offset
whose position is in range and matches. -/
theorem fuzzySearch_first (lines expected newL : List Str) (t o : Int) :
    ∀ os : List Int, List.Sorted (· ≤ ·) os → o ∈ os →
      0 ≤ t + o → matchesAt lines expected (t + o) = true →
      (∀ o' ∈ os, 0 ≤ t + o' → matchesAt lines expected (t + o') = true → o ≤ o') →
      fuzzySearch lines expected newL t os =
        ⟨true, splice lines (t + o).toNat expected.length newL⟩
  | [], _, hmem, _, _, _ => absurd hmem (List.not_mem_nil o)
  | o0 :: os, hs, hmem, hge, hmatch, hmin => by
    unfold fuzzySearch
    by_cases hc : 0 ≤ t + o0 ∧ matchesAt lines expected (t + o0) = true
    · rw [if_pos hc]
      have ho : o = o0 := by
        have h1 : o ≤ o0 := hmin o0 (List.mem_cons_self _ _) hc.1 hc.2
        rcases List.mem_cons.mp hmem with h | h
        · exact h
        · have h2 : o0 ≤ o := (List.sorted_cons.mp hs).1 o h
          omega
      rw [ho]
    · rw [if_neg hc]
      have ho : o ∈ os := by
        rcases List.mem_cons.mp hmem with h | h
        · exact absurd (h ▸ ⟨hge, hmatch⟩) hc
        · exact h
      exact fuzzySearch_first lines expected newL t o os (List.sorted_cons.mp hs).2 ho
        hge hmatch fun o' ho' => hmin o' (List.mem_cons_of_mem _ ho')

/-- Counterexample to claim C4: target where the expected line occurs at
offsets −3 and +1 from the candidate position.  The claim's order
(smallest absolute offset first) would splice at +1; the code scans
monotonically from −50 and splices at −3, so the code differs from the
claim's algorithm. -/
theorem C4_counterexample :
    applyHunk c4lines c4hunk false true =
      ⟨true, [str "z", str "Q", str "z", str "z", str "z", str "m", str "z"]⟩ ∧
    applyHunkSpecOrder c4lines c4hunk false true =
      ⟨true, [str "z", str "m", str "z", str "z", str "z", str "Q", str "z"]⟩ ∧
    (applyHunk c4lines c4hunk false true).lines ≠
      (applyHunkSpecOrder c4lines c4hunk false true).lines := by decide

/-- Claim C4, amended: when the exact attempt fails and fuzzy matching is
enabled, offsets `-50 … 50` (the window is fixed at 50, not a parameter)
are scanned in increasing order, and the splice happens at the least
matching offset — i.e. the most negative one, not the one of smallest
absolute value. -/
theorem C4_fuzzy_order_amended (lines : List Str) (h : DiffHunk) (r : Bool) (o : Int)
    (hexact : matchesAt lines (hunkExpected h r) ((h.oldStart : Int) - 1) = false)
    (hmem : o ∈ offsets50)
    (hge : 0 ≤ (h.oldStart : Int) - 1 + o)
    (hmatch : matchesAt lines (hunkExpected h r) ((h.oldStart : Int) - 1 + o) = true)
    (hmin : ∀ o' ∈ offsets50, 0 ≤ (h.oldStart : Int) - 1 + o' →
      matchesAt lines (hunkExpected h r) ((h.oldStart : Int) - 1 + o') = true → o ≤ o') :
    applyHunk lines h r true =
      ⟨true, splice lines ((h.oldStart : Int) - 1 + o).toNat
        (hunkExpected h r).length (hunkNew h r)⟩ := by
  have hsorted : List.Sorted (· ≤ ·) offsets50 := by decide
  unfold applyHunk
  rw [if_neg (by rw [hexact]; exact Bool.false_ne_true), if_pos rfl]
  exact fuzzySearch_first lines (hunkExpected h r) (hunkNew h r)
    ((h.oldStart : Int) - 1) o offsets50 hsorted hmem hge hmatch hmin

/-- Witness for C4's amended claim at a concrete fuzzy match of least
offset 1. -/
theorem C4_fuzzy_order_witness :
    applyHunk [str "q", str "m"] c4wHunk false true = ⟨true, [str "q", str "n"]⟩ :=
  (C4_fuzzy_order_amended [str "q", str "m"] c4wHunk false 1 (by decide) (by decide)
    (by decide) (by decide) (by decide)).trans (by decide)

/-- Counterexample to claim C3: a two-hunk patch applied in strict mode.
The code keeps no running offset, so after the first hunk grows the file
by one line the second hunk's exact attempt at `oldStart - 1` fails and
the whole call is rejected; the claim's algorithm (running offset) would
attempt at `oldStart - 1 + 1`, succeed, and write. -/
theorem C3_counterexample :
    (execute { patch := c3patch, fuzzy := false } true c3content).success = false ∧
    (executeSpecC3 { patch := c3patch, fuzzy := false } true c3content).success = true ∧
    (executeSpecC3 { patch := c3patch, fuzzy := false } true c3content).written =
      some (str "A\nA2\nb\nc\nd\ne\nf\ng\nX") := by decide

/-- Claim C3, amended: hunks are processed in the order they appear in
the patch and no running offset is maintained: every hunk's exact-match
attempt is made at 0-based position `oldStart - 1` in the current line
array, regardless of prior hunks' length deltas; when the expected lines
match there, the hunk is spliced in at that same position. -/
theorem C3_exact_position_amended (lines : List Str) (h : DiffHunk) (r fz : Bool)
    (hm : matchesAt lines (hunkExpected h r) ((h.oldStart : Int) - 1) = true) :
    applyHunk lines h r fz =
      ⟨true, splice lines ((h.oldStart : Int) - 1).toNat
        (hunkExpected h r).length (hunkNew h r)⟩ := by
  unfold applyHunk
  rw [if_pos (by rw [hm])]

/-- Witness for C3's amended claim at a concrete exact match. -/
theorem C3_exact_position_witness :
    applyHunk [str "a"] c3wHunk false true = ⟨true, [str "b"]⟩ :=
  (C3_exact_position_amended [str "a"] c3wHunk false true (by decide)).trans (by decide)

/-! ## Claim C6: when parsing fails -/

/-- If a line starts with literal `b`, and `a` is not a prefix of `b`,
then the line does not start with `a`. -/
theorem sw_of_sw (l a b : Str) (hlen : a.length ≤ b.length)
    (hne : ¬ b.take a.length = a) (hb : sw l b = true) : sw l a = false := by
  have hbt : l.take b.length = b := of_decide_eq_true hb
  have hta : l.take a.length = b.take a.length := by
    rw [← hbt, List.take_take, Nat.min_eq_left hlen]
  unfold sw
  rw [hta]
  exact decide_eq_false hne

/-- Hunk count of the parse loop: the incoming closed hunks, plus the
open hunk, plus one hunk per header line in the remaining input. -/
theorem parseAux_count (ls : List Str) : ∀ (oF nF : Str) (cur : Option DiffHunk)
    (hunks : List DiffHunk),
    (parseAux ls oF nF cur hunks).2.2.length =
      hunks.length + (if cur.isSome then 1 else 0) + ls.countP isHeaderLine := by
  induction ls with
  | nil =>
    intro oF nF cur hunks
    cases cur <;> simp [parseAux]
  | cons l rest ih =>
    intro oF nF cur hunks
    rw [List.countP_cons]
    by_cases h1 : sw l (str "---") = true
    · have hh : isHeaderLine l = false := by
        unfold isHeaderLine
        rw [sw_of_sw l (str "@@") (str "---") (by decide) (by decide) h1]
        rfl
      simp only [parseAux]
      rw [if_pos h1, ih, hh]
      simp
    · by_cases h2 : sw l (str "+++") = true
      · have hh : isHeaderLine l = false := by
          unfold isHeaderLine
          rw [sw_of_sw l (str "@@") (str "+++") (by decide) (by decide) h2]
          rfl
        simp only [parseAux]
        rw [if_neg h1, if_pos h2, ih, hh]
        simp
      · by_cases h3 : sw l (str "@@") = true
        · cases hf : findHeader l with
          | some r =>
            obtain ⟨a, b, c, d⟩ := r
            have hh : isHeaderLine l = true := by
              unfold isHeaderLine
              rw [h3, hf]
              rfl
            simp only [parseAux]
            rw [if_neg h1, if_neg h2, if_pos h3]
            simp only [hf]
            rw [ih, hh]
            cases cur <;> simp <;> omega
          | none =>
            have hh : isHeaderLine l = false := by
              unfold isHeaderLine
              rw [h3, hf]
              rfl
            simp only [parseAux]
            rw [if_neg h1, if_neg h2, if_pos h3]
            simp only [hf]
            rw [ih, hh]
            simp
        · have hsw : sw l (str "@@") = false := by simpa using h3
          have hh : isHeaderLine l = false := by
            unfold isHeaderLine
            rw [hsw]
            rfl
          cases cur with
          | none =>
            simp only [parseAux]
            rw [if_neg h1, if_neg h2, if_neg h3, ih, hh]
            simp
          | some hk =>
            simp only [parseAux]
            rw [if_neg h1, if_neg h2, if_neg h3]
            by_cases h4 : sw l (str "+") = true
            · rw [if_pos h4, ih, hh]
              simp
            · by_cases h5 : sw l (str "-") = true
              · rw [if_neg h4, if_pos h5, ih, hh]
                simp
              · by_cases h6 : sw l (str " ") = true
                · rw [if_neg h4, if_neg h5, if_pos h6, ih, hh]
                  simp
                · rw [if_neg h4, if_neg h5, if_neg h6, ih, hh]
                  simp

/-- Claim C6, amended: parsing fails (returns no parsed patch) exactly
when no line of the patch text is a parseable `@@` hunk header — in
particular when no hunk headers are present at all.  Content lines with
unrecognized prefixes are silently skipped, and a malformed `@@` header
is ignored rather than causing a failure. -/
theorem C6_parse_failure_amended (t : Str) :
    parseDiff t = none ↔ (splitNl t).all (fun l => !isHeaderLine l) = true := by
  unfold parseDiff
  have hc : (parseAux (splitNl t) [] [] none []).2.2.length =
      (splitNl t).countP isHeaderLine := by
    have := parseAux_count (splitNl t) [] [] none []
    simpa using this
  constructor
  · intro h
    by_cases hz : (parseAux (splitNl t) [] [] none []).2.2.length = 0
    · rw [hz] at hc
      have hcount : (splitNl t).countP isHeaderLine = 0 := hc.symm
      rw [List.all_eq_true]
      intro l hl
      have := (List.countP_eq_zero.mp hcount) l hl
      simpa using this
    · rw [if_neg hz] at h
      exact absurd h (by simp)
  · intro h
    have hcount : (splitNl t).countP isHeaderLine = 0 := by
      rw [List.countP_eq_zero]
      intro l hl
      have := (List.all_eq_true.mp h) l hl
      simpa using this
    rw [if_pos (hc.trans hcount)]

/-! ## Claim C7: the no-op diff -/

/-- Comparing a line list with itself yields only Same ops. -/
theorem findChangesAux_self_all_same (ls : List Str) :
    ∀ p q c, c ∈ findChangesAux ls ls p q → c.type = ChangeType.same := by
  induction ls with
  | nil =>
    intro p q c hc
    simp [findChangesAux, addTail] at hc
  | cons x rest ih =>
    intro p q c hc
    rw [findChangesAux, if_pos rfl] at hc
    rcases List.mem_cons.mp hc with h | h
    · rw [h]
    · exact ih (p + 1) (q + 1) c h

/-- Comparing a nonempty line list with itself yields a nonempty op
list. -/
theorem findChangesAux_self_cons (x : Str) (ls : List Str) (p q : Nat) :
    findChangesAux (x :: ls) (x :: ls) p q =
      ⟨ChangeType.same, p, q⟩ :: findChangesAux ls ls (p + 1) (q + 1) := by
  rw [findChangesAux, if_pos rfl]

/-- A change list with no non-Same op produces no hunks. -/
theorem groupAux_all_same (O M : List Str) (C : Nat) :
    ∀ cs : List Change, (∀ c ∈ cs, c.type = ChangeType.same) →
      ∀ acc, groupAux O M C cs none acc = acc := by
  intro cs
  induction cs with
  | nil => intro _ acc; rfl
  | cons c rest ih =>
    intro hall acc
    rw [groupAux, if_pos (hall c (List.mem_cons_self _ _))]
    exact ih (fun c' hc' => hall c' (List.mem_cons_of_mem _ hc')) acc

/-- `split` never returns an empty array. -/
theorem splitNl_ne_nil (s : Str) : splitNl s ≠ [] := by
  induction s with
  | nil => simp [splitNl]
  | cons c rest ih =>
    rw [splitNl]
    by_cases hc : c = '\n'
    · rw [if_pos hc]; simp
    · rw [if_neg hc]
      cases hr : splitNl rest with
      | nil => simp
      | cons l ls => simp

/-- Claim C7, amended: generating a diff of any text against itself
yields zero hunks, and the formatted output is exactly the two header
lines `--- a/<name>` and `+++ b/<name>` — not the empty string (the
code's empty-change early return is unreachable because `split` never
returns an empty array). -/
theorem C7_noop_amended (X fn : Str) (C : Nat) :
    groupIntoHunks (findChanges (splitNl X) (splitNl X)) (splitNl X) (splitNl X) C = [] ∧
    createUnifiedDiff X X fn C = joinNl [str "--- a/" ++ fn, str "+++ b/" ++ fn] := by
  have hempty : groupAux (splitNl X) (splitNl X) C
      (findChanges (splitNl X) (splitNl X)) none [] = [] :=
    groupAux_all_same (splitNl X) (splitNl X) C _
      (fun c hc => findChangesAux_self_all_same (splitNl X) 0 0 c hc) []
  have h1 : groupIntoHunks (findChanges (splitNl X) (splitNl X))
      (splitNl X) (splitNl X) C = [] := by
    unfold groupIntoHunks
    rw [hempty]
    rfl
  refine ⟨h1, ?_⟩
  have hne : findChanges (splitNl X) (splitNl X) ≠ [] := by
    cases hs : splitNl X with
    | nil => exact absurd hs (splitNl_ne_nil X)
    | cons x ls =>
      unfold findChanges
      rw [findChangesAux_self_cons]
      simp
  unfold createUnifiedDiff
  rw [if_neg (by simpa using hne)]
  rw [h1]
  rfl

/-! ## Claim C5: the merge threshold of hunk assembly -/

/-- Definitional step: comparing equal head lines emits a Same op. -/
theorem fcA_same (o : Str) (os ms : List Str) (p q : Nat) :
    findChangesAux (o :: os) (o :: ms) p q =
      ⟨ChangeType.same, p, q⟩ :: findChangesAux os ms (p + 1) (q + 1) := by
  rw [findChangesAux, if_pos rfl]

/-- Definitional step: comparing unequal head lines emits a remove/add
pair. -/
theorem fcA_diff (o m : Str) (os ms : List Str) (p q : Nat) (hne : o ≠ m) :
    findChangesAux (o :: os) (m :: ms) p q =
      ⟨ChangeType.remove, p, q⟩ :: ⟨ChangeType.add, p + 1, q⟩ ::
        findChangesAux os ms (p + 1) (q + 1) := by
  rw [findChangesAux, if_neg hne]

/-- Definitional step of `groupAux`: Same op, no open hunk. -/
theorem groupAux_same_none (O M : List Str) (C p q : Nat) (rest : List Change)
    (acc : List DiffHunk) :
    groupAux O M C (⟨ChangeType.same, p, q⟩ :: rest) none acc =
      groupAux O M C rest none acc := rfl

/-- Definitional step of `groupAux`: Same op with an open hunk appends a
context line and closes the hunk unless a change is near. -/
theorem groupAux_same_some (O M : List Str) (C p q : Nat) (rest : List Change)
    (h : DiffHunk) (acc : List DiffHunk) :
    groupAux O M C (⟨ChangeType.same, p, q⟩ :: rest) (some h) acc =
      if (rest.take C).any (fun c => decide (c.type ≠ ChangeType.same)) then
        groupAux O M C rest
          (some { h with lines := h.lines ++ [⟨.context, getLine O p⟩] }) acc
      else
        groupAux O M C rest none
          (acc ++ [{ h with lines := h.lines ++ [⟨.context, getLine O p⟩] }]) := rfl

/-- Definitional step of `groupAux`: Remove op with an open hunk. -/
theorem groupAux_rm_some (O M : List Str) (C p q : Nat) (rest : List Change)
    (h : DiffHunk) (acc : List DiffHunk) :
    groupAux O M C (⟨ChangeType.remove, p, q⟩ :: rest) (some h) acc =
      groupAux O M C rest
        (some { h with lines := h.lines ++ [⟨.remove, getLine O p⟩],
                       oldLines := h.oldLines + 1 }) acc := rfl

/-- Definitional step of `groupAux`: Add op with an open hunk. -/
theorem groupAux_add_some (O M : List Str) (C p q : Nat) (rest : List Change)
    (h : DiffHunk) (acc : List DiffHunk) :
    groupAux O M C (⟨ChangeType.add, p, q⟩ :: rest) (some h) acc =
      groupAux O M C rest
        (some { h with lines := h.lines ++ [⟨.add, getLine M q⟩],
                       newLines := h.newLines + 1 }) acc := rfl

/-- Definitional step of `groupAux`: Remove op with no open hunk opens
one, with leading context back to `oldIdx - C`. -/
theorem groupAux_rm_none (O M : List Str) (C p q : Nat) (rest : List Change)
    (acc : List DiffHunk) :
    groupAux O M C (⟨ChangeType.remove, p, q⟩ :: rest) none acc =
      groupAux O M C rest
        (some { oldStart := p - C + 1, oldLines := 0 + 1,
                newStart := q - C + 1, newLines := 0,
                lines := ((List.range' (p - C) (p - (p - C))).map fun j =>
                  (⟨.context, getLine O j⟩ : DiffLine)) ++
                  [⟨.remove, getLine O p⟩] }) acc := rfl

/-- Definitional step of `groupAux`: Add op with no open hunk opens one,
with leading context back to `oldIdx - C`. -/
theorem groupAux_add_none (O M : List Str) (C p q : Nat) (rest : List Change)
    (acc : List DiffHunk) :
    groupAux O M C (⟨ChangeType.add, p, q⟩ :: rest) none acc =
      groupAux O M C rest
        (some { oldStart := p - C + 1, oldLines := 0,
                newStart := q - C + 1, newLines := 0 + 1,
                lines := ((List.range' (p - C) (p - (p - C))).map fun j =>
                  (⟨.context, getLine O j⟩ : DiffLine)) ++
                  [⟨.add, getLine M q⟩] }) acc := rfl

/-- Definitional step of `groupAux`: end of changes. -/
theorem groupAux_nil_none (O M : List Str) (C : Nat) (acc : List DiffHunk) :
    groupAux O M C [] none acc = acc := rfl

/-- Definitional step of `groupAux`: end of changes with open hunk. -/
theorem groupAux_nil_some (O M : List Str) (C : Nat) (h : DiffHunk)
    (acc : List DiffHunk) :
    groupAux O M C [] (some h) acc = acc ++ [h] := rfl

/-- Unfolding of a Same run. -/
theorem sames_succ (g p : Nat) :
    sames (g + 1) p = ⟨ChangeType.same, p, p⟩ :: sames g (p + 1) := by
  simp [sames, List.range'_succ]

/-- The lookahead predicate is false on Same ops. -/
theorem lookNonSame_same (a b : Nat) :
    (fun c => decide (c.type ≠ ChangeType.same)) (⟨ChangeType.same, a, b⟩ : Change) = false :=
  rfl

/-- The change list of the gap-family tail: `g` Same ops then a
remove/add pair. -/
theorem fc_tail (g : Nat) : ∀ p : Nat,
    findChangesAux (List.replicate g (str "a") ++ [str "y"])
      (List.replicate g (str "a") ++ [str "Y"]) p p =
      sames g p ++ [⟨.remove, p + g, p + g⟩, ⟨.add, p + g + 1, p + g⟩] := by
  induction g with
  | zero =>
    intro p
    simp only [List.replicate, List.nil_append]
    rw [fcA_diff _ _ _ _ _ _ (by decide)]
    simp [findChangesAux, addTail, sames]
  | succ g ih =>
    intro p
    simp only [List.replicate_succ, List.cons_append]
    rw [fcA_same, ih (p + 1), sames_succ]
    have h1 : p + 1 + g = p + (g + 1) := by omega
    rw [h1, List.cons_append]

/-- The change list of the whole gap family. -/
theorem fc_family (g : Nat) :
    findChanges (gapO g) (gapM g) =
      ⟨.remove, 0, 0⟩ :: ⟨.add, 1, 0⟩ ::
        (sames g 1 ++ [⟨.remove, 1 + g, 1 + g⟩, ⟨.add, 1 + g + 1, 1 + g⟩]) := by
  unfold findChanges gapO gapM
  rw [List.cons_append, List.cons_append]
  rw [fcA_diff _ _ _ _ _ _ (by decide)]
  rw [show (0 : Nat) + 1 = 1 from rfl, fc_tail g 1]

/-- Lookahead over a Same run shorter than the window: the run is
skipped and the remainder of the window inspected. -/
theorem take_any_sames_lt :
    ∀ g C p (tl : List Change), g < C →
      ((sames g p ++ tl).take C).any (fun c => decide (c.type ≠ ChangeType.same)) =
        (tl.take (C - g)).any (fun c => decide (c.type ≠ ChangeType.same)) := by
  intro g
  induction g with
  | zero => intro C p tl _; simp [sames]
  | succ g ih =>
    intro C p tl hlt
    cases C with
    | zero => omega
    | succ C =>
      rw [sames_succ]
      simp only [List.cons_append, List.take_succ_cons, List.any_cons, lookNonSame_same]
      rw [ih C (p + 1) tl (by omega)]
      simp

/-- Lookahead over a Same run at least as long as the window: every
inspected op is Same. -/
theorem take_any_sames_ge :
    ∀ C g p (tl : List Change), C ≤ g →
      ((sames g p ++ tl).take C).any (fun c => decide (c.type ≠ ChangeType.same)) = false := by
  intro C
  induction C with
  | zero => intro g p tl _; simp
  | succ C ih =>
    intro g p tl hle
    cases g with
    | zero => omega
    | succ g =>
      rw [sames_succ]
      simp only [List.cons_append, List.take_succ_cons, List.any_cons, lookNonSame_same]
      rw [ih g (p + 1) tl (by omega)]
      simp

/-- With the hunk open, a Same gap of at most the context size followed
by a remove/add pair merges into the open hunk: exactly one hunk is
emitted. -/
theorem lenA (O M : List Str) (C : Nat) (q1 q2 q3 q4 : Nat) :
    ∀ g p (h : DiffHunk) (acc : List DiffHunk), g ≤ C →
      (groupAux O M C (sames g p ++ [⟨.remove, q1, q2⟩, ⟨.add, q3, q4⟩])
        (some h) acc).length = acc.length + 1 := by
  intro g
  induction g with
  | zero =>
    intro p h acc _
    simp only [sames, List.range', List.map_nil, List.nil_append]
    rw [groupAux_rm_some, groupAux_add_some, groupAux_nil_some]
    simp
  | succ g ih =>
    intro p h acc hle
    rw [sames_succ, List.cons_append, groupAux_same_some]
    rw [take_any_sames_lt g C (p + 1) _ (by omega)]
    have hrm : (([⟨.remove, q1, q2⟩, ⟨.add, q3, q4⟩] : List Change).take (C - g)).any
        (fun c => decide (c.type ≠ ChangeType.same)) = true := by
      have hcg : C - g = (C - g - 1) + 1 := by omega
      rw [hcg]
      simp
    rw [hrm, if_pos rfl]
    exact ih (p + 1) _ acc (by omega)

/-- Skipping a Same run with no open hunk. -/
theorem groupAux_sames_none (O M : List Str) (C : Nat) :
    ∀ k p (tl : List Change) (acc : List DiffHunk),
      groupAux O M C (sames k p ++ tl) none acc = groupAux O M C tl none acc := by
  intro k
  induction k with
  | zero => intro p tl acc; simp [sames]
  | succ k ih =>
    intro p tl acc
    rw [sames_succ, List.cons_append, groupAux_same_none]
    exact ih (p + 1) tl acc

/-- With the hunk open, a Same gap longer than the context size closes
the hunk after one trailing context line; the following remove/add pair
opens a second hunk: two hunks are emitted. -/
theorem lenB (O M : List Str) (C : Nat) (q1 q2 q3 q4 : Nat) :
    ∀ g p (h : DiffHunk) (acc : List DiffHunk), C < g →
      (groupAux O M C (sames g p ++ [⟨.remove, q1, q2⟩, ⟨.add, q3, q4⟩])
        (some h) acc).length = acc.length + 2 := by
  intro g
  cases g with
  | zero => intro p h acc hlt; omega
  | succ g =>
    intro p h acc hlt
    rw [sames_succ, List.cons_append, groupAux_same_some]
    rw [take_any_sames_ge C g (p + 1) _ (by omega)]
    rw [if_neg (by simp)]
    rw [groupAux_sames_none O M C g (p + 1)]
    rw [groupAux_rm_none, groupAux_add_some, groupAux_nil_some]
    simp

/-- Claim C5, amended: with context size `C`, two change clusters merge
into a single hunk exactly when the Same-gap between them is at most `C`
(not `2×C`): on the family with a gap of `g` unchanged lines between two
changed lines, hunk assembly emits one hunk when `g ≤ C` and two hunks
when `g > C`. -/
theorem C5_gap_threshold_amended (C g : Nat) :
    (groupIntoHunks (findChanges (gapO g) (gapM g)) (gapO g) (gapM g) C).length =
      if g ≤ C then 1 else 2 := by
  unfold groupIntoHunks
  rw [List.length_map, fc_family]
  rw [groupAux_rm_none, groupAux_add_some]
  by_cases hg : g ≤ C
  · rw [if_pos hg]
    exact lenA (gapO g) (gapM g) C (1 + g) (1 + g) (1 + g + 1) (1 + g) g 1 _ [] hg
  · rw [if_neg hg]
    exact lenB (gapO g) (gapM g) C (1 + g) (1 + g) (1 + g + 1) (1 + g) g 1 _ [] (by omega)

/-! ## List helper lemmas -/

/-- `getD` after a `drop` reads at the shifted index. -/
theorem getD_drop (l : List Str) : ∀ (k i : Nat),
    (l.drop k).getD i [] = l.getD (k + i) [] := by
  induction l with
  | nil => intro k i; simp
  | cons a l ih =>
    intro k i
    cases k with
    | zero => simp
    | succ k =>
      rw [List.drop_succ_cons, ih k i]
      have he : k + 1 + i = (k + i) + 1 := by omega
      rw [he, List.getD_cons_succ]

/-- A list splits at an in-bounds index into its prefix, the element
there, and the suffix. -/
theorem drop_eq_getD_cons (l : List Str) : ∀ (a : Nat), a < l.length →
    l.drop a = l.getD a [] :: l.drop (a + 1) := by
  induction l with
  | nil => intro a ha; simp at ha
  | cons x l ih =>
    intro a ha
    cases a with
    | zero => rfl
    | succ a =>
      rw [List.drop_succ_cons, List.getD_cons_succ, ih a (by simpa using ha)]
      rfl

/-- Extending a prefix by the element at its end. -/
theorem take_succ_getD (l : List Str) : ∀ (k : Nat), k < l.length →
    l.take (k + 1) = l.take k ++ [l.getD k []] := by
  induction l with
  | nil => intro k hk; simp at hk
  | cons x l ih =>
    intro k hk
    cases k with
    | zero => rfl
    | succ k =>
      rw [List.take_succ_cons, List.take_succ_cons, List.getD_cons_succ,
        ih k (by simpa using hk)]
      rfl

/-- Dropping past an appended prefix. -/
theorem drop_append_le (A : List Str) : ∀ (B : List Str) (n : Nat), A.length ≤ n →
    (A ++ B).drop n = B.drop (n - A.length) := by
  induction A with
  | nil => intro B n _; simp
  | cons a A ih =>
    intro B n hn
    cases n with
    | zero => simp at hn
    | succ n =>
      rw [List.cons_append, List.drop_succ_cons, ih B n (by simpa using hn)]
      simp

/-- Taking past an appended prefix. -/
theorem take_append_le (A : List Str) : ∀ (B : List Str) (n : Nat), A.length ≤ n →
    (A ++ B).take n = A ++ B.take (n - A.length) := by
  induction A with
  | nil => intro B n _; simp
  | cons a A ih =>
    intro B n hn
    cases n with
    | zero => simp at hn
    | succ n =>
      rw [List.cons_append, List.take_succ_cons, ih B n (by simpa using hn)]
      simp

/-! ## `split('\n')` / `join('\n')` round trip -/

/-- Lines produced by `split` contain no newline. -/
theorem splitNl_no_newline (s : Str) : ∀ l ∈ splitNl s, '\n' ∉ l := by
  induction s with
  | nil =>
    intro l hl
    simp [splitNl] at hl
    simp [hl]
  | cons c rest ih =>
    intro l hl
    rw [splitNl] at hl
    by_cases hc : c = '\n'
    · rw [if_pos hc] at hl
      rcases List.mem_cons.mp hl with h | h
      · simp [h]
      · exact ih l h
    · rw [if_neg hc] at hl
      cases hr : splitNl rest with
      | nil => exact absurd hr (splitNl_ne_nil rest)
      | cons l0 ls =>
        rw [hr] at hl
        rcases List.mem_cons.mp hl with h | h
        · subst h
          intro hmem
          rcases List.mem_cons.mp hmem with h' | h'
          · exact hc h'.symm
          · exact ih l0 (hr ▸ List.mem_cons_self _ _) h'
        · exact ih l (hr ▸ List.mem_cons_of_mem _ h)

/-- `join` inverts `split`. -/
theorem joinNl_splitNl (s : Str) : joinNl (splitNl s) = s := by
  induction s with
  | nil => rfl
  | cons c rest ih =>
    rw [splitNl]
    by_cases hc : c = '\n'
    · rw [if_pos hc]
      cases hr : splitNl rest with
      | nil => exact absurd hr (splitNl_ne_nil rest)
      | cons l ls =>
        rw [joinNl, hc]
        rw [hr] at ih
        rw [ih]
        rfl
    · rw [if_neg hc]
      cases hr : splitNl rest with
      | nil => exact absurd hr (splitNl_ne_nil rest)
      | cons l ls =>
        rw [hr] at ih
        cases ls with
        | nil =>
          rw [joinNl] at ih ⊢
          rw [ih]
        | cons l2 ls2 =>
          rw [joinNl] at ih ⊢
          rw [List.cons_append, ih]

/-- A newline-free string splits into itself. -/
theorem splitNl_no_nl (l : Str) (hl : '\n' ∉ l) : splitNl l = [l] := by
  induction l with
  | nil => rfl
  | cons c rest ih =>
    rw [splitNl, if_neg (by intro h; exact hl (h ▸ List.mem_cons_self _ _))]
    rw [ih (fun h => hl (List.mem_cons_of_mem _ h))]

/-- Splitting a newline-free line glued before a newline. -/
theorem splitNl_append_nl (l : Str) (s : Str) (hl : '\n' ∉ l) :
    splitNl (l ++ '\n' :: s) = l :: splitNl s := by
  induction l with
  | nil => rw [List.nil_append, splitNl, if_pos rfl]
  | cons c rest ih =>
    rw [List.cons_append, splitNl,
      if_neg (by intro h; exact hl (h ▸ List.mem_cons_self _ _))]
    rw [ih (fun h => hl (List.mem_cons_of_mem _ h))]

/-- `split` inverts `join` on nonempty lists of newline-free lines. -/
theorem splitNl_joinNl : ∀ (L : List Str), L ≠ [] → (∀ l ∈ L, '\n' ∉ l) →
    splitNl (joinNl L) = L
  | [], hne, _ => absurd rfl hne
  | [l], _, hnl => by
    rw [joinNl, splitNl_no_nl l (hnl l (List.mem_cons_self _ _))]
  | l :: l2 :: ls, _, hnl => by
    rw [joinNl, splitNl_append_nl l _ (hnl l (List.mem_cons_self _ _))]
    rw [splitNl_joinNl (l2 :: ls) (by simp)
      (fun x hx => hnl x (List.mem_cons_of_mem _ hx))]

/-! ## `findChanges` produces a `Script` -/

/-- Position is in range when the remaining suffix is nonempty. -/
theorem lt_length_of_drop_cons {O : List Str} {p : Nat} {o : Str} {os : List Str}
    (h : O.drop p = o :: os) : p < O.length := by
  by_contra hge
  rw [List.drop_eq_nil_of_le (by omega)] at h
  exact List.noConfusion h

/-- Head and tail of a nonempty suffix. -/
theorem drop_cons_parts {O : List Str} {p : Nat} {o : Str} {os : List Str}
    (h : O.drop p = o :: os) : O.getD p [] = o ∧ O.drop (p + 1) = os := by
  have hp := lt_length_of_drop_cons h
  have := drop_eq_getD_cons O p hp
  rw [h] at this
  exact ⟨(List.cons.injEq _ _ _ _ ▸ this).1.symm, (List.cons.injEq _ _ _ _ ▸ this).2.symm⟩

/-- The pure-addition tail is a `Script`. -/
theorem addTail_script (O M : List Str) : ∀ (ms : List Str) (p q : Nat),
    O.length ≤ p → ms = M.drop q → Script O M p q (addTail ms p q) := by
  intro ms
  induction ms with
  | nil =>
    intro p q hO hm
    rw [addTail]
    exact Script.nil p q hO (by
      have := congrArg List.length hm
      simp [List.length_drop] at this
      omega)
  | cons m ms ih =>
    intro p q hO hm
    rw [addTail]
    have hparts := drop_cons_parts hm.symm
    exact Script.add p q _ hO (lt_length_of_drop_cons hm.symm)
      (ih p (q + 1) hO hparts.2.symm)

/-- `findChangesAux` produces a `Script` from any aligned suffix pair. -/
theorem script_findChangesAux (O M : List Str) : ∀ (os : List Str),
    ∀ (ms : List Str) (p q : Nat), os = O.drop p → ms = M.drop q →
    Script O M p q (findChangesAux os ms p q) := by
  intro os
  induction os with
  | nil =>
    intro ms p q ho hm
    rw [findChangesAux]
    have hO : O.length ≤ p := by
      have := congrArg List.length ho
      simp [List.length_drop] at this
      omega
    exact addTail_script O M ms p q hO hm
  | cons o os ih =>
    intro ms p q ho hm
    have hop := drop_cons_parts ho.symm
    have hpO := lt_length_of_drop_cons ho.symm
    cases ms with
    | nil =>
      rw [findChangesAux]
      have hM : M.length ≤ q := by
        have := congrArg List.length hm
        simp [List.length_drop] at this
        omega
      exact Script.rem p q _ hpO hM (ih [] (p + 1) q hop.2.symm hm)
    | cons m ms =>
      have hmp := drop_cons_parts hm.symm
      have hqM := lt_length_of_drop_cons hm.symm
      rw [findChangesAux]
      by_cases heq : o = m
      · rw [if_pos heq]
        exact Script.same p q _ hpO hqM (by rw [hop.1, hmp.1, heq])
          (ih ms (p + 1) (q + 1) hop.2.symm hmp.2.symm)
      · rw [if_neg heq]
        exact Script.diff p q _ hpO hqM (by rw [hop.1, hmp.1]; exact heq)
          (ih ms (p + 1) (q + 1) hop.2.symm hmp.2.symm)

/-- `findChanges` produces a `Script` from the start. -/
theorem script_findChanges (O M : List Str) : Script O M 0 0 (findChanges O M) :=
  script_findChangesAux O M O M 0 0 (List.drop_zero O).symm (List.drop_zero M).symm

/-- A script of only Same ops forces the suffixes to agree. -/
theorem script_all_same_imp_eq {O M : List Str} :
    ∀ {p q cs}, Script O M p q cs → (∀ c ∈ cs, c.type = ChangeType.same) →
      O.drop p = M.drop q := by
  intro p q cs hs
  induction hs with
  | nil p q hO hM =>
    intro _
    rw [List.drop_eq_nil_of_le hO, List.drop_eq_nil_of_le hM]
  | add p q cs hO hq _ _ =>
    intro hall
    exact absurd (hall _ (List.mem_cons_self _ _)) (by intro h; exact ChangeType.noConfusion h)
  | rem p q cs hp hM _ _ =>
    intro hall
    exact absurd (hall _ (List.mem_cons_self _ _)) (by intro h; exact ChangeType.noConfusion h)
  | same p q cs hp hq hget _ ih =>
    intro hall
    rw [drop_eq_getD_cons O p hp, drop_eq_getD_cons M q hq, hget,
      ih fun c hc => hall c (List.mem_cons_of_mem _ hc)]
  | diff p q cs hp hq hne _ _ =>
    intro hall
    exact absurd (hall _ (List.mem_cons_self _ _)) (by intro h; exact ChangeType.noConfusion h)

/-- Appending to the accumulator commutes with the scan. -/
theorem groupAux_acc (O M : List Str) (C : Nat) :
    ∀ (cs : List Change) (cur : Option DiffHunk) (acc : List DiffHunk),
      groupAux O M C cs cur acc = acc ++ groupAux O M C cs cur [] := by
  intro cs
  induction cs with
  | nil =>
    intro cur acc
    cases cur with
    | none => simp [groupAux_nil_none]
    | some h => simp [groupAux_nil_some]
  | cons ch rest ih =>
    intro cur acc
    obtain ⟨t, a, b⟩ := ch
    cases t with
    | same =>
      cases cur with
      | none => rw [groupAux_same_none, groupAux_same_none, ih]
      | some h =>
        rw [groupAux_same_some, groupAux_same_some]
        by_cases hm : ((rest.take C).any fun c => decide (c.type ≠ ChangeType.same)) = true
        · rw [if_pos hm, if_pos hm, ih]
        · rw [if_neg hm, if_neg hm, ih none, ih none]
          simp
          conv_rhs => rw [ih none]
          simp
    | remove =>
      cases cur with
      | none => rw [groupAux_rm_none, groupAux_rm_none, ih]
      | some h => rw [groupAux_rm_some, groupAux_rm_some, ih]
    | add =>
      cases cur with
      | none => rw [groupAux_add_none, groupAux_add_none, ih]
      | some h => rw [groupAux_add_some, groupAux_add_some, ih]

/-- The scan emits at least one hunk when a change exists or a hunk is
open. -/
theorem groupAux_nonempty (O M : List Str) (C : Nat) :
    ∀ (cs : List Change) (cur : Option DiffHunk),
      ((∃ c ∈ cs, c.type ≠ ChangeType.same) ∨ cur.isSome = true) →
      groupAux O M C cs cur [] ≠ [] := by
  intro cs
  induction cs with
  | nil =>
    intro cur hor
    cases cur with
    | none =>
      rcases hor with h | h
      · simp at h
      · simp at h
    | some h => rw [groupAux_nil_some]; simp
  | cons ch rest ih =>
    intro cur hor
    obtain ⟨t, a, b⟩ := ch
    cases t with
    | same =>
      cases cur with
      | none =>
        rw [groupAux_same_none]
        apply ih none
        left
        rcases hor with h | h
        · rcases h with ⟨c, hc, hct⟩
          rcases List.mem_cons.mp hc with h' | h'
          · exact absurd (congrArg Change.type h') (by simpa using hct)
          · exact ⟨c, h', hct⟩
        · simp at h
      | some h =>
        rw [groupAux_same_some]
        by_cases hm : ((rest.take C).any fun c => decide (c.type ≠ ChangeType.same)) = true
        · rw [if_pos hm]
          exact ih (some _) (Or.inr rfl)
        · rw [if_neg hm, groupAux_acc]
          simp
    | remove =>
      cases cur with
      | none =>
        rw [groupAux_rm_none]
        exact ih (some _) (Or.inr rfl)
      | some h =>
        rw [groupAux_rm_some]
        exact ih (some _) (Or.inr rfl)
    | add =>
      cases cur with
      | none =>
        rw [groupAux_add_none]
        exact ih (some _) (Or.inr rfl)
      | some h =>
        rw [groupAux_add_some]
        exact ih (some _) (Or.inr rfl)

/-! ## Decimal formatting and parsing round trip -/

/-- Digit characters are digits. -/
theorem digitCh_isDigit (d : Nat) (h : d < 10) : (digitCh d).isDigit = true := by
  interval_cases d <;> decide

/-- Numeric value of a digit character. -/
theorem digitCh_toNat (d : Nat) (h : d < 10) : (digitCh d).toNat = 48 + d := by
  interval_cases d <;> decide

/-- The fuel of `natDecCore` is irrelevant once sufficient. -/
theorem natDecCore_fuel : ∀ (fuel fuel' n : Nat), n < fuel → n < fuel' →
    natDecCore fuel n = natDecCore fuel' n := by
  intro fuel
  induction fuel with
  | zero => intro fuel' n h _; omega
  | succ fuel ih =>
    intro fuel' n h h'
    cases fuel' with
    | zero => omega
    | succ fuel' =>
      rw [natDecCore, natDecCore]
      by_cases h10 : n < 10
      · rw [if_pos h10, if_pos h10]
      · rw [if_neg h10, if_neg h10,
          ih fuel' (n / 10) (by omega) (by omega)]

/-- The defining recursion of `natDec`. -/
theorem natDec_eq (n : Nat) : natDec n =
    if n < 10 then [digitCh n] else natDec (n / 10) ++ [digitCh (n % 10)] := by
  rw [natDec, natDecCore]
  by_cases h10 : n < 10
  · rw [if_pos h10, if_pos h10]
  · rw [if_neg h10, if_neg h10, natDec,
      natDecCore_fuel n (n / 10 + 1) (n / 10) (by omega) (by omega)]

/-- Decimal representations are nonempty. -/
theorem natDec_ne_nil (n : Nat) : natDec n ≠ [] := by
  rw [natDec_eq]
  by_cases h10 : n < 10
  · rw [if_pos h10]; simp
  · rw [if_neg h10]; simp

/-- Every character of a decimal representation is a digit. -/
theorem natDec_all_digits (n : Nat) : ∀ c ∈ natDec n, c.isDigit = true := by
  induction n using Nat.strong_induction_on with
  | _ n ih =>
    intro c hc
    rw [natDec_eq] at hc
    by_cases h10 : n < 10
    · rw [if_pos h10] at hc
      rcases List.mem_singleton.mp hc with h
      exact h ▸ digitCh_isDigit n h10
    · rw [if_neg h10] at hc
      rcases List.mem_append.mp hc with h | h
      · exact ih (n / 10) (Nat.div_lt_self (by omega) (by omega)) c h
      · rcases List.mem_singleton.mp h with h
        exact h ▸ digitCh_isDigit (n % 10) (Nat.mod_lt n (by omega))

/-- `parseInt` step for a trailing digit. -/
theorem digitsToNat_append (l : List Char) (c : Char) :
    digitsToNat (l ++ [c]) = digitsToNat l * 10 + (c.toNat - 48) := by
  unfold digitsToNat
  rw [List.foldl_append]
  rfl

/-- `parseInt` inverts decimal formatting. -/
theorem digitsToNat_natDec (n : Nat) : digitsToNat (natDec n) = n := by
  induction n using Nat.strong_induction_on with
  | _ n ih =>
    rw [natDec_eq]
    by_cases h10 : n < 10
    · rw [if_pos h10]
      unfold digitsToNat
      simp [List.foldl, digitCh_toNat n h10]
    · rw [if_neg h10, digitsToNat_append,
        ih (n / 10) (Nat.div_lt_self (by omega) (by omega)),
        digitCh_toNat (n % 10) (Nat.mod_lt n (by omega))]
      omega

/-- `takeWhile` and `dropWhile` split at the first failing character. -/
theorem takeWhile_dropWhile_append (p : Char → Bool) :
    ∀ (l1 : List Char) (c0 : Char) (l2 : List Char),
      (∀ c ∈ l1, p c = true) → p c0 = false →
      (l1 ++ c0 :: l2).takeWhile p = l1 ∧ (l1 ++ c0 :: l2).dropWhile p = c0 :: l2 := by
  intro l1
  induction l1 with
  | nil =>
    intro c0 l2 _ hc0
    constructor
    · rw [List.nil_append, List.takeWhile_cons, hc0]
      rfl
    · rw [List.nil_append, List.dropWhile_cons, hc0]
      rfl
  | cons c l1 ih =>
    intro c0 l2 hall hc0
    have hc : p c = true := hall c (List.mem_cons_self _ _)
    have := ih c0 l2 (fun x hx => hall x (List.mem_cons_of_mem _ hx)) hc0
    constructor
    · rw [List.cons_append, List.takeWhile_cons, hc, this.1]
      rfl
    · rw [List.cons_append, List.dropWhile_cons, hc, this.2]
      rfl

/-- `readNat` reads exactly a formatted number followed by a non-digit. -/
theorem readNat_round (n : Nat) (c0 : Char) (rest : List Char)
    (hc0 : c0.isDigit = false) :
    readNat (natDec n ++ c0 :: rest) = some (n, c0 :: rest) := by
  have hsplit := takeWhile_dropWhile_append Char.isDigit (natDec n) c0 rest
    (natDec_all_digits n) hc0
  unfold readNat
  rw [hsplit.1, hsplit.2,
    if_neg (by simpa [List.isEmpty_iff] using natDec_ne_nil n)]
  rw [digitsToNat_natDec]

/-- `expectLit` consumes exactly its literal. -/
theorem expectLit_pre (lit s : Str) : expectLit lit (lit ++ s) = some s := by
  unfold expectLit
  rw [if_pos (List.take_left lit s), List.drop_left]

/-! ## The hunk header parses back -/

/-- Literal view of `"@@ -" ++ X`. -/
theorem str_atdash_cons (X : Str) :
    str "@@ -" ++ X = '@' :: '@' :: ' ' :: '-' :: X := rfl

/-- Literal view of `"," ++ X`. -/
theorem str_comma_cons (X : Str) : str "," ++ X = ',' :: X := rfl

/-- Literal view of `" +" ++ X`. -/
theorem str_plus_cons (X : Str) : str " +" ++ X = ' ' :: '+' :: X := rfl

/-- Literal view of `" @@"`. -/
theorem str_satat : str " @@" = ' ' :: '@' :: '@' :: [] := rfl

/-- `readNat` before a comma. -/
theorem readNat_comma (n : Nat) (rest : List Char) :
    readNat (natDec n ++ ',' :: rest) = some (n, ',' :: rest) :=
  readNat_round n ',' rest (by decide)

/-- `readNat` before a space. -/
theorem readNat_space (n : Nat) (rest : List Char) :
    readNat (natDec n ++ ' ' :: rest) = some (n, ' ' :: rest) :=
  readNat_round n ' ' rest (by decide)

/-- `expectLit` on a comma. -/
theorem expectLit_comma (rest : List Char) :
    expectLit (str ",") (',' :: rest) = some rest :=
  expectLit_pre (str ",") rest

/-- `expectLit` on `" +"`. -/
theorem expectLit_spl (rest : List Char) :
    expectLit (str " +") (' ' :: '+' :: rest) = some rest :=
  expectLit_pre (str " +") rest

/-- `expectLit` on the terminal `" @@"`. -/
theorem expectLit_satat :
    expectLit (str " @@") (' ' :: '@' :: '@' :: []) = some [] := by decide

/-- The header regex matches a formatted header at position 0 and
extracts the four numbers. -/
theorem matchHeaderAt_header (a b c d : Nat) :
    matchHeaderAt (str "@@ -" ++ (natDec a ++ (str "," ++ (natDec b ++
      (str " +" ++ (natDec c ++ (str "," ++ (natDec d ++ str " @@")))))))) =
      some (a, b, c, d) := by
  simp only [matchHeaderAt, expectLit_pre, str_comma_cons, str_plus_cons, str_satat,
    readNat_comma, readNat_space, expectLit_comma, expectLit_spl, expectLit_satat]
  rfl

/-- The formatted hunk header, reassociated to the right. -/
theorem hunkHeader_assoc (h : DiffHunk) :
    hunkHeader h = str "@@ -" ++ (natDec h.oldStart ++ (str "," ++ (natDec h.oldLines ++
      (str " +" ++ (natDec h.newStart ++ (str "," ++ (natDec h.newLines ++ str " @@"))))))) := by
  unfold hunkHeader
  simp [List.append_assoc]

/-- `findHeader` recovers the four numbers from a formatted header. -/
theorem findHeader_hunkHeader (h : DiffHunk) :
    findHeader (hunkHeader h) =
      some (h.oldStart, h.oldLines, h.newStart, h.newLines) := by
  rw [hunkHeader_assoc, str_atdash_cons, findHeader, ← str_atdash_cons,
    matchHeaderAt_header]

/-! ## The whole formatted patch parses back -/

/-- Peeling one equal character off a `startsWith` test. -/
theorem sw_cons_eq (c : Char) (s pre : Str) : sw (c :: s) (c :: pre) = sw s pre := by
  unfold sw
  apply decide_eq_decide.mpr
  rw [List.length_cons, List.take_succ_cons]
  constructor
  · intro h
    exact ((List.cons.injEq _ _ _ _).mp h).2
  · intro h
    rw [h]

/-- A `startsWith` test fails on differing head characters. -/
theorem sw_cons_ne (c1 c2 : Char) (s pre : Str) (h : c1 ≠ c2) :
    sw (c1 :: s) (c2 :: pre) = false := by
  unfold sw
  apply decide_eq_false
  intro heq
  rw [List.length_cons, List.take_succ_cons] at heq
  exact h ((List.cons.injEq _ _ _ _).mp heq).1

/-- Everything starts with the empty string. -/
theorem sw_nil (s : Str) : sw s [] = true := by
  unfold sw
  simp

/-- `parseAux` consumes one formatted content line by pushing it onto
the open hunk, provided a removed line does not start with `--` and an
added line does not start with `++`. -/
theorem parseAux_content_line (l : DiffLine) (rest : List Str) (oF nF : Str)
    (curh : DiffHunk) (hunks : List DiffHunk)
    (hrm : l.type = LineType.remove → sw l.content (str "--") = false)
    (hadd : l.type = LineType.add → sw l.content (str "++") = false) :
    parseAux (fmtLine l :: rest) oF nF (some curh) hunks =
      parseAux rest oF nF (some (pushLine curh l.type l.content)) hunks := by
  obtain ⟨t, c⟩ := l
  cases t with
  | context =>
    show parseAux ((' ' :: c) :: rest) oF nF (some curh) hunks = _
    simp only [parseAux]
    rw [if_neg (by rw [show str "---" = '-' :: str "--" from rfl,
        sw_cons_ne ' ' '-' _ _ (by decide)]; exact Bool.false_ne_true)]
    rw [if_neg (by rw [show str "+++" = '+' :: str "++" from rfl,
        sw_cons_ne ' ' '+' _ _ (by decide)]; exact Bool.false_ne_true)]
    rw [if_neg (by rw [show str "@@" = '@' :: str "@" from rfl,
        sw_cons_ne ' ' '@' _ _ (by decide)]; exact Bool.false_ne_true)]
    rw [if_neg (by rw [show str "+" = '+' :: ([] : Str) from rfl,
        sw_cons_ne ' ' '+' _ _ (by decide)]; exact Bool.false_ne_true)]
    rw [if_neg (by rw [show str "-" = '-' :: ([] : Str) from rfl,
        sw_cons_ne ' ' '-' _ _ (by decide)]; exact Bool.false_ne_true)]
    rw [if_pos (by rw [show str " " = ' ' :: ([] : Str) from rfl,
        sw_cons_eq, sw_nil])]
    rfl
  | remove =>
    show parseAux (('-' :: c) :: rest) oF nF (some curh) hunks = _
    simp only [parseAux]
    rw [if_neg (by rw [show str "---" = '-' :: str "--" from rfl,
        sw_cons_eq]; rw [hrm rfl]; exact Bool.false_ne_true)]
    rw [if_neg (by rw [show str "+++" = '+' :: str "++" from rfl,
        sw_cons_ne '-' '+' _ _ (by decide)]; exact Bool.false_ne_true)]
    rw [if_neg (by rw [show str "@@" = '@' :: str "@" from rfl,
        sw_cons_ne '-' '@' _ _ (by decide)]; exact Bool.false_ne_true)]
    rw [if_neg (by rw [show str "+" = '+' :: ([] : Str) from rfl,
        sw_cons_ne '-' '+' _ _ (by decide)]; exact Bool.false_ne_true)]
    rw [if_pos (by rw [show str "-" = '-' :: ([] : Str) from rfl,
        sw_cons_eq, sw_nil])]
    rfl
  | add =>
    show parseAux (('+' :: c) :: rest) oF nF (some curh) hunks = _
    simp only [parseAux]
    rw [if_neg (by rw [show str "---" = '-' :: str "--" from rfl,
        sw_cons_ne '+' '-' _ _ (by decide)]; exact Bool.false_ne_true)]
    rw [if_neg (by rw [show str "+++" = '+' :: str "++" from rfl,
        sw_cons_eq]; rw [hadd rfl]; exact Bool.false_ne_true)]
    rw [if_neg (by rw [show str "@@" = '@' :: str "@" from rfl,
        sw_cons_ne '+' '@' _ _ (by decide)]; exact Bool.false_ne_true)]
    rw [if_pos (by rw [show str "+" = '+' :: ([] : Str) from rfl,
        sw_cons_eq, sw_nil])]
    rfl

/-- `parseAux` consumes a hunk body, appending its lines to the open
hunk. -/
theorem parseAux_body : ∀ (L : List DiffLine) (rest : List Str) (oF nF : Str)
    (curh : DiffHunk) (hunks : List DiffHunk),
    (∀ l ∈ L, l.type = LineType.remove → sw l.content (str "--") = false) →
    (∀ l ∈ L, l.type = LineType.add → sw l.content (str "++") = false) →
    parseAux (L.map fmtLine ++ rest) oF nF (some curh) hunks =
      parseAux rest oF nF (some { curh with lines := curh.lines ++ L }) hunks := by
  intro L
  induction L with
  | nil =>
    intro rest oF nF curh hunks _ _
    simp
  | cons l L ih =>
    intro rest oF nF curh hunks hrm hadd
    rw [List.map_cons, List.cons_append,
      parseAux_content_line l _ oF nF curh hunks
        (hrm l (List.mem_cons_self _ _)) (hadd l (List.mem_cons_self _ _)),
      ih rest oF nF (pushLine curh l.type l.content) hunks
        (fun x hx => hrm x (List.mem_cons_of_mem _ hx))
        (fun x hx => hadd x (List.mem_cons_of_mem _ hx))]
    show _ = parseAux rest oF nF (some { curh with lines := curh.lines ++ l :: L }) hunks
    rw [show pushLine curh l.type l.content =
      { curh with lines := curh.lines ++ [l] } from rfl]
    simp

/-- `parseAux` consumes a formatted hunk list: each header pushes the
open hunk and starts the next, so the hunks are reconstructed exactly. -/
theorem parseAux_hunks : ∀ (hs : List DiffHunk) (oF nF : Str)
    (cur : Option DiffHunk) (acc : List DiffHunk),
    (∀ h ∈ hs, ∀ l ∈ h.lines, l.type = LineType.remove →
      sw l.content (str "--") = false) →
    (∀ h ∈ hs, ∀ l ∈ h.lines, l.type = LineType.add →
      sw l.content (str "++") = false) →
    parseAux ((hs.map formatHunk).flatten) oF nF cur acc =
      (oF, nF, (acc ++ cur.toList) ++ hs) := by
  intro hs
  induction hs with
  | nil =>
    intro oF nF cur acc _ _
    cases cur <;> simp [parseAux]
  | cons h hs ih =>
    intro oF nF cur acc hrm hadd
    obtain ⟨a1, a2, a3, a4, L⟩ := h
    rw [List.map_cons, List.flatten_cons]
    rw [show formatHunk ⟨a1, a2, a3, a4, L⟩ =
      hunkHeader ⟨a1, a2, a3, a4, L⟩ :: L.map fmtLine from rfl]
    rw [List.cons_append]
    have hcons : hunkHeader (⟨a1, a2, a3, a4, L⟩ : DiffHunk) = '@' :: ('@' :: (' ' :: ('-' ::
        (natDec a1 ++ (str "," ++ (natDec a2 ++ (str " +" ++
          (natDec a3 ++ (str "," ++ (natDec a4 ++ str " @@")))))))))) := by
      rw [hunkHeader_assoc, str_atdash_cons]
    simp only [parseAux]
    rw [if_neg (by rw [hcons, show str "---" = '-' :: str "--" from rfl,
      sw_cons_ne '@' '-' _ _ (by decide)]; exact Bool.false_ne_true)]
    rw [if_neg (by rw [hcons, show str "+++" = '+' :: str "++" from rfl,
      sw_cons_ne '@' '+' _ _ (by decide)]; exact Bool.false_ne_true)]
    rw [if_pos (by rw [hcons, show str "@@" = '@' :: ('@' :: ([] : Str)) from rfl,
      sw_cons_eq, sw_cons_eq, sw_nil])]
    rw [findHeader_hunkHeader]
    show parseAux (L.map fmtLine ++ (hs.map formatHunk).flatten) oF nF
      (some ⟨a1, a2, a3, a4, []⟩) (acc ++ cur.toList) = _
    rw [parseAux_body L _ oF nF ⟨a1, a2, a3, a4, []⟩ (acc ++ cur.toList)
      (fun l hl => hrm ⟨a1, a2, a3, a4, L⟩ (List.mem_cons_self _ _) l hl)
      (fun l hl => hadd ⟨a1, a2, a3, a4, L⟩ (List.mem_cons_self _ _) l hl)]
    show parseAux ((hs.map formatHunk).flatten) oF nF
      (some ⟨a1, a2, a3, a4, L⟩) (acc ++ cur.toList) = _
    rw [ih oF nF (some ⟨a1, a2, a3, a4, L⟩) (acc ++ cur.toList)
      (fun x hx => hrm x (List.mem_cons_of_mem _ hx))
      (fun x hx => hadd x (List.mem_cons_of_mem _ hx))]
    simp

/-- Definitional single step of the parse loop on one line. -/
theorem parseAux_cons (l : Str) (rest : List Str) (oF nF : Str)
    (cur : Option DiffHunk) (hunks : List DiffHunk) :
    parseAux (l :: rest) oF nF cur hunks =
      if sw l (str "---") = true then parseAux rest (trimWs (l.drop 4)) nF cur hunks
      else if sw l (str "+++") = true then parseAux rest oF (trimWs (l.drop 4)) cur hunks
      else if sw l (str "@@") = true then
        match findHeader l with
        | some (a, b, c, d) =>
          parseAux rest oF nF (some ⟨a, b, c, d, []⟩) (hunks ++ cur.toList)
        | none => parseAux rest oF nF cur hunks
      else
        match cur with
        | none => parseAux rest oF nF none hunks
        | some h =>
          if sw l (str "+") = true then
            parseAux rest oF nF (some (pushLine h .add (l.drop 1))) hunks
          else if sw l (str "-") = true then
            parseAux rest oF nF (some (pushLine h .remove (l.drop 1))) hunks
          else if sw l (str " ") = true then
            parseAux rest oF nF (some (pushLine h .context (l.drop 1))) hunks
          else parseAux rest oF nF (some h) hunks := rfl

/-- Decimal representations contain no newline. -/
theorem natDec_no_nl (n : Nat) : '\n' ∉ natDec n := fun hmem =>
  absurd (natDec_all_digits n '\n' hmem) (by decide)

/-- Formatted hunk headers contain no newline. -/
theorem hunkHeader_no_nl (h : DiffHunk) : '\n' ∉ hunkHeader h := by
  rw [hunkHeader_assoc]
  intro hmem
  simp only [List.mem_append] at hmem
  rcases hmem with hm | hm | hm | hm | hm | hm | hm | hm | hm
  · exact absurd hm (by decide)
  · exact natDec_no_nl _ hm
  · exact absurd hm (by decide)
  · exact natDec_no_nl _ hm
  · exact absurd hm (by decide)
  · exact natDec_no_nl _ hm
  · exact absurd hm (by decide)
  · exact natDec_no_nl _ hm
  · exact absurd hm (by decide)

/-- Formatted content lines contain no newline when their content does
not. -/
theorem fmtLine_no_nl (dl : DiffLine) (hc : '\n' ∉ dl.content) :
    '\n' ∉ fmtLine dl := by
  obtain ⟨t, c⟩ := dl
  cases t <;>
    (intro hm
     rcases List.mem_cons.mp hm with h' | h'
     · exact absurd h' (by decide)
     · exact hc h')

/-- The formatted patch document parses back to exactly its hunk list. -/
theorem parse_format (fn : Str) (hfn : '\n' ∉ fn) (hs : List DiffHunk) (hne : hs ≠ [])
    (hnl : ∀ h ∈ hs, ∀ l ∈ h.lines, '\n' ∉ l.content)
    (hrm : ∀ h ∈ hs, ∀ l ∈ h.lines, l.type = LineType.remove →
      sw l.content (str "--") = false)
    (hadd : ∀ h ∈ hs, ∀ l ∈ h.lines, l.type = LineType.add →
      sw l.content (str "++") = false) :
    (parseDiff (joinNl ((str "--- a/" ++ fn) :: (str "+++ b/" ++ fn) ::
      (hs.map formatHunk).flatten))).map ParsedDiff.hunks = some hs := by
  have hsplit : splitNl (joinNl ((str "--- a/" ++ fn) :: (str "+++ b/" ++ fn) ::
      (hs.map formatHunk).flatten)) = (str "--- a/" ++ fn) :: (str "+++ b/" ++ fn) ::
      (hs.map formatHunk).flatten := by
    apply splitNl_joinNl
    · simp
    · intro l hl
      rcases List.mem_cons.mp hl with h | hl2
      · subst h
        intro hm
        rcases List.mem_append.mp hm with h' | h'
        · exact absurd h' (by decide)
        · exact hfn h'
      rcases List.mem_cons.mp hl2 with h | hl3
      · subst h
        intro hm
        rcases List.mem_append.mp hm with h' | h'
        · exact absurd h' (by decide)
        · exact hfn h'
      · rcases List.mem_flatten.mp hl3 with ⟨ls, hls, hlmem⟩
        rcases List.mem_map.mp hls with ⟨h, hh, hfh⟩
        subst hfh
        rw [show formatHunk h = hunkHeader h :: h.lines.map fmtLine from rfl] at hlmem
        rcases List.mem_cons.mp hlmem with h' | h'
        · exact h' ▸ hunkHeader_no_nl h
        · rcases List.mem_map.mp h' with ⟨dl, hdl, hfl⟩
          exact hfl ▸ fmtLine_no_nl dl (hnl h hh dl hdl)
  have hc1 : sw (str "--- a/" ++ fn) (str "---") = true := by
    rw [show str "--- a/" ++ fn = '-' :: '-' :: '-' :: (' ' :: 'a' :: '/' :: fn) from rfl,
      show str "---" = '-' :: '-' :: '-' :: ([] : Str) from rfl,
      sw_cons_eq, sw_cons_eq, sw_cons_eq, sw_nil]
  have hc2 : sw (str "+++ b/" ++ fn) (str "---") = true → False := by
    rw [show str "+++ b/" ++ fn = '+' :: '+' :: '+' :: (' ' :: 'b' :: '/' :: fn) from rfl,
      show str "---" = '-' :: '-' :: '-' :: ([] : Str) from rfl,
      sw_cons_ne '+' '-' _ _ (by decide)]
    exact fun h => Bool.false_ne_true h
  have hc3 : sw (str "+++ b/" ++ fn) (str "+++") = true := by
    rw [show str "+++ b/" ++ fn = '+' :: '+' :: '+' :: (' ' :: 'b' :: '/' :: fn) from rfl,
      show str "+++" = '+' :: '+' :: '+' :: ([] : Str) from rfl,
      sw_cons_eq, sw_cons_eq, sw_cons_eq, sw_nil]
  unfold parseDiff
  rw [hsplit]
  rw [parseAux_cons]
  rw [if_pos hc1]
  rw [parseAux_cons]
  rw [if_neg hc2]
  rw [if_pos hc3]
  rw [parseAux_hunks hs _ _ none [] hrm hadd]
  rw [if_neg (show ¬ (([] : List DiffHunk) ++ (none : Option DiffHunk).toList ++ hs).length = 0 from by
    simpa using hne)]
  rfl

/-! ## Applying a covering hunk list reconstructs the modified text -/

/-- `getD` inside a long-enough prefix. -/
theorem getD_take (l : List Str) : ∀ (n i : Nat), i < n →
    (l.take n).getD i [] = l.getD i [] := by
  induction l with
  | nil => intro n i _; simp
  | cons a l ih =>
    intro n i hin
    cases n with
    | zero => omega
    | succ n =>
      rw [List.take_succ_cons]
      cases i with
      | zero => rfl
      | succ i =>
        rw [List.getD_cons_succ, List.getD_cons_succ]
        exact ih n i (by omega)

/-- `matchesAt` succeeds when the expected lines are exactly the slice
at the given (in-bounds) position. -/
theorem matchesAt_of_slice (lines expected : List Str) (k : Nat)
    (hlen : k + expected.length ≤ lines.length)
    (hsl : (lines.drop k).take expected.length = expected) :
    matchesAt lines expected (k : Int) = true := by
  unfold matchesAt
  have hcond : ¬((k : Int) < 0 ∨ (lines.length : Int) < (k : Int) + expected.length) := by
    push_neg
    constructor
    · exact Int.ofNat_nonneg k
    · exact_mod_cast hlen
  rw [if_neg hcond]
  rw [List.all_eq_true]
  intro i hi
  rw [List.mem_range] at hi
  apply decide_eq_true
  have htn : (k : Int).toNat = k := Int.toNat_ofNat k
  rw [htn]
  conv_rhs => rw [← hsl]
  rw [getD_take _ _ _ hi, getD_drop]

/-- Definitional step of the hunk loop. -/
theorem applyLoop_cons (r f : Bool) (h : DiffHunk) (hs : List DiffHunk)
    (lines : List Str) :
    applyLoop r f (h :: hs) lines =
      if (applyHunk lines h r f).success = true then
        ((applyLoop r f hs (applyHunk lines h r f).lines).1,
         (applyLoop r f hs (applyHunk lines h r f).lines).2.1 + 1,
         (applyLoop r f hs (applyHunk lines h r f).lines).2.2)
      else
        ((applyLoop r f hs lines).1, (applyLoop r f hs lines).2.1,
         (applyLoop r f hs lines).2.2 + 1) := rfl

/-- Applying a covering hunk list in normal mode succeeds on every hunk
by exact match and produces exactly the modified lines. -/
theorem applyLoop_covers (O M : List Str) (fz : Bool) :
    ∀ {p q : Nat} {hs : List DiffHunk}, Covers O M p q hs →
      applyLoop false fz hs (M.take q ++ O.drop p) = (M, hs.length, 0) := by
  intro p q hs hcov
  induction hcov with
  | nil p q hdrop =>
    rw [hdrop]
    rw [List.take_append_drop]
    rfl
  | cons p h hs eLen nLen hstart hps hgap hexp heb hnew hnb rest ih =>
    have hpM : p ≤ M.length := by omega
    have hpO : p ≤ O.length := by omega
    have hlen_take : (M.take p).length = p := by
      rw [List.length_take]
      omega
    have hcurlen : (M.take p ++ O.drop p).length = O.length := by
      rw [List.length_append, hlen_take, List.length_drop]
      omega
    have heLen : (hunkExpected h false).length = eLen := by
      rw [hexp, List.length_take, List.length_drop]
      omega
    have hdrop_s : (M.take p ++ O.drop p).drop (h.oldStart - 1) = O.drop (h.oldStart - 1) := by
      rw [drop_append_le _ _ _ (by omega), hlen_take, List.drop_drop]
      congr 1
      omega
    have hmatch : matchesAt (M.take p ++ O.drop p) (hunkExpected h false)
        ((h.oldStart - 1 : Nat) : Int) = true := by
      apply matchesAt_of_slice
      · rw [heLen, hcurlen]
        exact heb
      · rw [hdrop_s, heLen]
        exact hexp.symm
    have ht : (h.oldStart : Int) - 1 = ((h.oldStart - 1 : Nat) : Int) := by omega
    have htake_s : (M.take p ++ O.drop p).take (h.oldStart - 1) = M.take (h.oldStart - 1) := by
      rw [take_append_le _ _ _ (by omega), hlen_take]
      rw [show (O.drop p).take (h.oldStart - 1 - p) = (M.drop p).take (h.oldStart - 1 - p) from hgap]
      rw [← List.take_add]
      congr 1
      omega
    have hdrop_e : (M.take p ++ O.drop p).drop (h.oldStart - 1 + eLen) =
        O.drop (h.oldStart - 1 + eLen) := by
      rw [drop_append_le _ _ _ (by omega), hlen_take, List.drop_drop]
      congr 1
      omega
    have hsplice : splice (M.take p ++ O.drop p) (h.oldStart - 1)
        (hunkExpected h false).length (hunkNew h false) =
        M.take (h.oldStart - 1 + nLen) ++ O.drop (h.oldStart - 1 + eLen) := by
      unfold splice
      rw [heLen, htake_s, hdrop_e, hnew, List.append_assoc]
      rw [← List.append_assoc, ← List.take_add]
    have hhunk : applyHunk (M.take p ++ O.drop p) h false fz =
        ⟨true, M.take (h.oldStart - 1 + nLen) ++ O.drop (h.oldStart - 1 + eLen)⟩ := by
      unfold applyHunk
      rw [ht, if_pos hmatch, Int.toNat_ofNat, hsplice]
    rw [applyLoop_cons, hhunk]
    rw [if_pos rfl]
    show ((applyLoop false fz hs
      (M.take (h.oldStart - 1 + nLen) ++ O.drop (h.oldStart - 1 + eLen))).1, _, _) = _
    rw [ih]
    simp

/-! ## Expected/new line extraction under hunk construction -/

/-- Appending a context line extends the expected lines. -/
theorem exp_app_ctx (h : DiffHunk) (c : Str) :
    hunkExpected { h with lines := h.lines ++ [⟨.context, c⟩] } false =
      hunkExpected h false ++ [c] := by
  simp [hunkExpected, List.filter_append]

/-- Appending a remove line extends the expected lines. -/
theorem exp_app_rm (h : DiffHunk) (c : Str) :
    hunkExpected { h with lines := h.lines ++ [⟨.remove, c⟩],
                          oldLines := h.oldLines + 1 } false =
      hunkExpected h false ++ [c] := by
  simp [hunkExpected, List.filter_append]

/-- Appending an add line leaves the expected lines unchanged. -/
theorem exp_app_add (h : DiffHunk) (c : Str) :
    hunkExpected { h with lines := h.lines ++ [⟨.add, c⟩],
                          newLines := h.newLines + 1 } false =
      hunkExpected h false := by
  simp [hunkExpected, List.filter_append]

/-- Appending a context line extends the new lines. -/
theorem new_app_ctx (h : DiffHunk) (c : Str) :
    hunkNew { h with lines := h.lines ++ [⟨.context, c⟩] } false =
      hunkNew h false ++ [c] := by
  simp [hunkNew, List.filter_append]

/-- Appending a remove line leaves the new lines unchanged. -/
theorem new_app_rm (h : DiffHunk) (c : Str) :
    hunkNew { h with lines := h.lines ++ [⟨.remove, c⟩],
                     oldLines := h.oldLines + 1 } false =
      hunkNew h false := by
  simp [hunkNew, List.filter_append]

/-- Appending an add line extends the new lines. -/
theorem new_app_add (h : DiffHunk) (c : Str) :
    hunkNew { h with lines := h.lines ++ [⟨.add, c⟩],
                     newLines := h.newLines + 1 } false =
      hunkNew h false ++ [c] := by
  simp [hunkNew, List.filter_append]

/-- Expected lines of a freshly opened remove hunk: the leading context
then the removed line. -/
theorem exp_ctxmap_rm (O : List Str) (o1 o2 o3 o4 : Nat) (R : List Nat) (c : Str) :
    hunkExpected ⟨o1, o2, o3, o4,
      (R.map fun j => (⟨LineType.context, getLine O j⟩ : DiffLine)) ++
        [⟨LineType.remove, c⟩]⟩ false = R.map (getLine O) ++ [c] := by
  simp [hunkExpected, List.filter_append, List.filter_map, Function.comp]
  induction R with
  | nil => rfl
  | cons a R ih => simp [List.filter_cons, Function.comp, ih]

/-- New lines of a freshly opened remove hunk: just the leading context. -/
theorem new_ctxmap_rm (O : List Str) (o1 o2 o3 o4 : Nat) (R : List Nat) (c : Str) :
    hunkNew ⟨o1, o2, o3, o4,
      (R.map fun j => (⟨LineType.context, getLine O j⟩ : DiffLine)) ++
        [⟨LineType.remove, c⟩]⟩ false = R.map (getLine O) := by
  simp [hunkNew, List.filter_append, List.filter_map, Function.comp]
  induction R with
  | nil => rfl
  | cons a R ih => simp [List.filter_cons, Function.comp, ih]

/-- Expected lines of a freshly opened add hunk: just the leading
context. -/
theorem exp_ctxmap_add (O : List Str) (o1 o2 o3 o4 : Nat) (R : List Nat) (c : Str) :
    hunkExpected ⟨o1, o2, o3, o4,
      (R.map fun j => (⟨LineType.context, getLine O j⟩ : DiffLine)) ++
        [⟨LineType.add, c⟩]⟩ false = R.map (getLine O) := by
  simp [hunkExpected, List.filter_append, List.filter_map, Function.comp]
  induction R with
  | nil => rfl
  | cons a R ih => simp [List.filter_cons, Function.comp, ih]

/-- New lines of a freshly opened add hunk: the leading context then the
added line. -/
theorem new_ctxmap_add (O : List Str) (o1 o2 o3 o4 : Nat) (R : List Nat) (c : Str) :
    hunkNew ⟨o1, o2, o3, o4,
      (R.map fun j => (⟨LineType.context, getLine O j⟩ : DiffLine)) ++
        [⟨LineType.add, c⟩]⟩ false = R.map (getLine O) ++ [c] := by
  simp [hunkNew, List.filter_append, List.filter_map, Function.comp]
  induction R with
  | nil => rfl
  | cons a R ih => simp [List.filter_cons, Function.comp, ih]

/-- The leading-context index range reads off the original slice. -/
theorem map_getLine_range (O : List Str) : ∀ (n a : Nat), a + n ≤ O.length →
    (List.range' a n).map (getLine O) = (O.drop a).take n := by
  intro n
  induction n with
  | zero => intro a _; simp
  | succ n ih =>
    intro a hb
    rw [List.range'_succ, List.map_cons, ih (a + 1) (by omega)]
    rw [drop_eq_getD_cons O a (by omega), List.take_succ_cons]
    rfl

/-- Extending a slice by the element at its end. -/
theorem slice_ext (l : List Str) (a k : Nat) (hk : a + k < l.length) :
    (l.drop a).take (k + 1) = (l.drop a).take k ++ [l.getD (a + k) []] := by
  rw [take_succ_getD (l.drop a) k (by rw [List.length_drop]; omega), getD_drop]

/-- No lookahead change means the window is all Same. -/
theorem all_same_of_not_any (l : List Change)
    (hm : (l.any fun c => decide (c.type ≠ ChangeType.same)) = false) :
    (l.all fun c => decide (c.type = ChangeType.same)) = true := by
  rw [List.all_eq_true]
  intro c hc
  rw [List.any_eq_false] at hm
  have := hm c hc
  simpa using this

/-- A non-Same head change under the closing guard pushes the boundary
at least `C` back from the current position. -/
theorem guard_bound {C x p : Nat} (c : Change) (cs : List Change)
    (hxp : x ≤ p) (hct : c.type ≠ ChangeType.same)
    (hguard : x = 0 ∨
      (((c :: cs).take (C - (p - x))).all fun d =>
        decide (d.type = ChangeType.same)) = true) :
    x ≤ p - C := by
  rcases hguard with h0 | hall
  · omega
  · by_contra hx
    obtain ⟨k, hk⟩ : ∃ k, C - (p - x) = k + 1 := ⟨C - (p - x) - 1, by omega⟩
    rw [hk, List.take_succ_cons, List.all_cons, Bool.and_eq_true] at hall
    have h1 := hall.1
    simp at h1
    exact hct h1

/-- The closing guard survives consuming one Same op. -/
theorem guard_step {C x p : Nat} (f : Change → Bool) (c : Change) (cs : List Change)
    (hxp : x ≤ p)
    (hguard : x = 0 ∨ (((c :: cs).take (C - (p - x))).all f) = true) :
    x = 0 ∨ ((cs.take (C - (p + 1 - x))).all f) = true := by
  rcases hguard with h0 | hall
  · exact Or.inl h0
  · right
    by_cases hC : C - (p - x) = 0
    · rw [show C - (p + 1 - x) = 0 from by omega]
      rfl
    · obtain ⟨k, hk⟩ : ∃ k, C - (p - x) = k + 1 := ⟨C - (p - x) - 1, by omega⟩
      rw [hk, List.take_succ_cons, List.all_cons, Bool.and_eq_true] at hall
      rw [show C - (p + 1 - x) = k from by omega]
      exact hall.2

/-- An agreeing region restricts to any shorter prefix. -/
theorem gap_prefix (O M : List Str) (x p k : Nat) (hk : k ≤ p - x)
    (heq : (O.drop x).take (p - x) = (M.drop x).take (p - x)) :
    (O.drop x).take k = (M.drop x).take k := by
  have h := congrArg (List.take k) heq
  rw [List.take_take, List.take_take, Nat.min_eq_left hk] at h
  exact h

/-- An agreeing region restricts to any later start. -/
theorem gap_suffix (O M : List Str) (x p a : Nat) (hxa : x ≤ a) (hap : a ≤ p)
    (heq : (O.drop x).take (p - x) = (M.drop x).take (p - x)) :
    (O.drop a).take (p - a) = (M.drop a).take (p - a) := by
  have h := congrArg (List.drop (a - x)) heq
  rw [List.drop_take, List.drop_take, List.drop_drop, List.drop_drop] at h
  rw [show x + (a - x) = a from by omega, show p - x - (a - x) = p - a from by omega] at h
  exact h

/-- Master invariant of the `groupIntoHunks` scan: from a `Script`
derivation, the scan with no open hunk (under `NoneInv`) and the scan
with an open hunk (under `OpenInv`, with the two positions aligned or a
file exhausted) both produce hunk lists that `Covers` the boundary. -/
theorem groupAux_covers (O M : List Str) (C : Nat) :
    ∀ {p q : Nat} {cs : List Change}, Script O M p q cs →
      ((∀ x : Nat, p = q → NoneInv O M C x p cs →
        Covers O M x x (groupAux O M C cs none [])) ∧
       (∀ (x : Nat) (h : DiffHunk), OpenInv O M x p q h →
        (p = q ∨ O.length ≤ p ∨ M.length ≤ q) →
        Covers O M x x (groupAux O M C cs (some h) []))) := by
  intro p q cs hsc
  induction hsc with
  | nil p q hO hM =>
    constructor
    · intro x hpq inv
      subst hpq
      obtain ⟨hxp, heq, hpO, hpM, _⟩ := inv
      have e1 : (O.drop x).take (p - x) = O.drop x :=
        List.take_of_length_le (by rw [List.length_drop]; omega)
      have e2 : (M.drop x).take (p - x) = M.drop x :=
        List.take_of_length_le (by rw [List.length_drop]; omega)
      exact Covers.nil x x (by rw [← e1, heq, e2])
    · intro x h inv hbal
      obtain ⟨hstart, hsame, hxa, hap, haq, hgap, hexp, hnew, hpO, hqM⟩ := inv
      rw [groupAux_nil_some, List.nil_append]
      refine Covers.cons x h [] (p - (h.oldStart - 1)) (q - (h.oldStart - 1))
        hstart hxa hgap hexp (by omega) hnew (by omega) ?_
      rw [show h.oldStart - 1 + (p - (h.oldStart - 1)) = p from by omega,
          show h.oldStart - 1 + (q - (h.oldStart - 1)) = q from by omega]
      exact Covers.nil p q
        (by rw [List.drop_eq_nil_of_le hO, List.drop_eq_nil_of_le hM])
  | same p q cs hp hq hget hrest ih =>
    constructor
    · intro x hpq inv
      subst hpq
      obtain ⟨hxp, heq, hpO, hpM, hguard⟩ := inv
      rw [groupAux_same_none]
      refine ih.1 x rfl ⟨by omega, ?_, by omega, by omega, ?_⟩
      · rw [show p + 1 - x = (p - x) + 1 from by omega,
            slice_ext O x (p - x) (by omega), slice_ext M x (p - x) (by omega),
            heq, show x + (p - x) = p from by omega, hget]
      · exact guard_step _ _ _ hxp hguard
    · intro x h inv hbal
      have hpq : p = q := by
        rcases hbal with h1 | h1 | h1
        · exact h1
        · omega
        · omega
      subst hpq
      obtain ⟨hstart, hsame, hxa, hap, haq, hgap, hexp, hnew, hpO, hqM⟩ := inv
      rw [groupAux_same_some]
      by_cases hm : ((cs.take C).any fun c => decide (c.type ≠ ChangeType.same)) = true
      · rw [if_pos hm]
        refine ih.2 x _ ⟨?_, ?_, ?_, ?_, ?_, ?_, ?_, ?_, ?_, ?_⟩ (Or.inl rfl)
        · exact hstart
        · exact hsame
        · exact hxa
        · show h.oldStart - 1 ≤ p + 1; omega
        · show h.oldStart - 1 ≤ p + 1; omega
        · exact hgap
        · show hunkExpected _ false = (O.drop (h.oldStart - 1)).take (p + 1 - (h.oldStart - 1))
          rw [exp_app_ctx, hexp,
              show p + 1 - (h.oldStart - 1) = (p - (h.oldStart - 1)) + 1 from by omega,
              slice_ext O (h.oldStart - 1) (p - (h.oldStart - 1)) (by omega),
              show h.oldStart - 1 + (p - (h.oldStart - 1)) = p from by omega]
          rfl
        · show hunkNew _ false = (M.drop (h.oldStart - 1)).take (p + 1 - (h.oldStart - 1))
          rw [new_app_ctx, hnew,
              show p + 1 - (h.oldStart - 1) = (p - (h.oldStart - 1)) + 1 from by omega,
              slice_ext M (h.oldStart - 1) (p - (h.oldStart - 1)) (by omega),
              show h.oldStart - 1 + (p - (h.oldStart - 1)) = p from by omega]
          rw [show getLine O p = M.getD p [] from hget]
        · show p + 1 ≤ O.length; omega
        · show p + 1 ≤ M.length; omega
      · rw [if_neg hm]
        have hmf : ((cs.take C).any fun c => decide (c.type ≠ ChangeType.same)) = false := by
          simpa using hm
        simp only [List.nil_append]
        rw [groupAux_acc O M C cs none
          [{ h with lines := h.lines ++ [⟨.context, getLine O p⟩] }],
          List.singleton_append]
        refine Covers.cons x _ _ (p + 1 - (h.oldStart - 1)) (p + 1 - (h.oldStart - 1))
          ?_ ?_ ?_ ?_ ?_ ?_ ?_ ?_
        · exact hstart
        · exact hxa
        · exact hgap
        · show hunkExpected _ false = (O.drop (h.oldStart - 1)).take (p + 1 - (h.oldStart - 1))
          rw [exp_app_ctx, hexp,
              show p + 1 - (h.oldStart - 1) = (p - (h.oldStart - 1)) + 1 from by omega,
              slice_ext O (h.oldStart - 1) (p - (h.oldStart - 1)) (by omega),
              show h.oldStart - 1 + (p - (h.oldStart - 1)) = p from by omega]
          rfl
        · show h.oldStart - 1 + (p + 1 - (h.oldStart - 1)) ≤ O.length; omega
        · show hunkNew _ false = (M.drop (h.oldStart - 1)).take (p + 1 - (h.oldStart - 1))
          rw [new_app_ctx, hnew,
              show p + 1 - (h.oldStart - 1) = (p - (h.oldStart - 1)) + 1 from by omega,
              slice_ext M (h.oldStart - 1) (p - (h.oldStart - 1)) (by omega),
              show h.oldStart - 1 + (p - (h.oldStart - 1)) = p from by omega]
          rw [show getLine O p = M.getD p [] from hget]
        · show h.oldStart - 1 + (p + 1 - (h.oldStart - 1)) ≤ M.length; omega
        · show Covers O M (h.oldStart - 1 + (p + 1 - (h.oldStart - 1)))
            (h.oldStart - 1 + (p + 1 - (h.oldStart - 1))) (groupAux O M C cs none [])
          rw [show h.oldStart - 1 + (p + 1 - (h.oldStart - 1)) = p + 1 from by omega]
          refine ih.1 (p + 1) rfl ⟨le_refl _, by simp, by omega, by omega, Or.inr ?_⟩
          rw [show C - (p + 1 - (p + 1)) = C from by omega]
          exact all_same_of_not_any _ hmf
  | rem p q cs hp hM hrest ih =>
    constructor
    · intro x hpq inv
      subst hpq
      obtain ⟨hxp, heq, hpO, hpM, hguard⟩ := inv
      have hxa : x ≤ p - C :=
        guard_bound ⟨ChangeType.remove, p, p⟩ cs hxp (fun hcc => ChangeType.noConfusion hcc) hguard
      have hgapb : (O.drop x).take (p - C - x) = (M.drop x).take (p - C - x) :=
        gap_prefix O M x p _ (by omega) heq
      have hgapm : (O.drop (p - C)).take (p - (p - C)) =
          (M.drop (p - C)).take (p - (p - C)) :=
        gap_suffix O M x p (p - C) hxa (by omega) heq
      have hctx : (List.range' (p - C) (p - (p - C))).map (getLine O) =
          (O.drop (p - C)).take (p - (p - C)) :=
        map_getLine_range O _ _ (by omega)
      rw [groupAux_rm_none]
      refine ih.2 x _ ⟨?_, ?_, ?_, ?_, ?_, ?_, ?_, ?_, ?_, ?_⟩ (Or.inr (Or.inr hM))
      · show 1 ≤ p - C + 1; omega
      · show p - C + 1 = p - C + 1; rfl
      · show x ≤ p - C; exact hxa
      · show p - C ≤ p + 1; omega
      · show p - C ≤ p; omega
      · show (O.drop x).take (p - C - x) = (M.drop x).take (p - C - x); exact hgapb
      · show hunkExpected _ false = (O.drop (p - C)).take (p + 1 - (p - C))
        rw [exp_ctxmap_rm, hctx,
            show p + 1 - (p - C) = (p - (p - C)) + 1 from by omega,
            slice_ext O (p - C) (p - (p - C)) (by omega),
            show p - C + (p - (p - C)) = p from by omega]
        rfl
      · show hunkNew _ false = (M.drop (p - C)).take (p - (p - C))
        rw [new_ctxmap_rm, hctx, hgapm]
      · show p + 1 ≤ O.length; omega
      · show p ≤ M.length; exact hpM
    · intro x h inv hbal
      obtain ⟨hstart, hsame, hxa, hap, haq, hgap, hexp, hnew, hpO, hqM⟩ := inv
      rw [groupAux_rm_some]
      refine ih.2 x _ ⟨?_, ?_, ?_, ?_, ?_, ?_, ?_, ?_, ?_, ?_⟩ (Or.inr (Or.inr hM))
      · exact hstart
      · exact hsame
      · exact hxa
      · show h.oldStart - 1 ≤ p + 1; omega
      · exact haq
      · exact hgap
      · show hunkExpected _ false = (O.drop (h.oldStart - 1)).take (p + 1 - (h.oldStart - 1))
        rw [exp_app_rm, hexp,
            show p + 1 - (h.oldStart - 1) = (p - (h.oldStart - 1)) + 1 from by omega,
            slice_ext O (h.oldStart - 1) (p - (h.oldStart - 1)) (by omega),
            show h.oldStart - 1 + (p - (h.oldStart - 1)) = p from by omega]
        rfl
      · show hunkNew _ false = (M.drop (h.oldStart - 1)).take (q - (h.oldStart - 1))
        rw [new_app_rm]; exact hnew
      · show p + 1 ≤ O.length; omega
      · show q ≤ M.length; exact hqM
  | add p q cs hO hq hrest ih =>
    constructor
    · intro x hpq inv
      subst hpq
      obtain ⟨hxp, heq, hpO, hpM, hguard⟩ := inv
      have hxa : x ≤ p - C :=
        guard_bound ⟨ChangeType.add, p, p⟩ cs hxp (fun hcc => ChangeType.noConfusion hcc) hguard
      have hgapb : (O.drop x).take (p - C - x) = (M.drop x).take (p - C - x) :=
        gap_prefix O M x p _ (by omega) heq
      have hgapm : (O.drop (p - C)).take (p - (p - C)) =
          (M.drop (p - C)).take (p - (p - C)) :=
        gap_suffix O M x p (p - C) hxa (by omega) heq
      have hctx : (List.range' (p - C) (p - (p - C))).map (getLine O) =
          (O.drop (p - C)).take (p - (p - C)) :=
        map_getLine_range O _ _ (by omega)
      rw [groupAux_add_none]
      refine ih.2 x _ ⟨?_, ?_, ?_, ?_, ?_, ?_, ?_, ?_, ?_, ?_⟩ (Or.inr (Or.inl hO))
      · show 1 ≤ p - C + 1; omega
      · show p - C + 1 = p - C + 1; rfl
      · show x ≤ p - C; exact hxa
      · show p - C ≤ p; omega
      · show p - C ≤ p + 1; omega
      · show (O.drop x).take (p - C - x) = (M.drop x).take (p - C - x); exact hgapb
      · show hunkExpected _ false = (O.drop (p - C)).take (p - (p - C))
        rw [exp_ctxmap_add, hctx]
      · show hunkNew _ false = (M.drop (p - C)).take (p + 1 - (p - C))
        rw [new_ctxmap_add, hctx, hgapm,
            show p + 1 - (p - C) = (p - (p - C)) + 1 from by omega,
            slice_ext M (p - C) (p - (p - C)) (by omega),
            show p - C + (p - (p - C)) = p from by omega]
        rfl
      · show p ≤ O.length; exact hpO
      · show p + 1 ≤ M.length; omega
    · intro x h inv hbal
      obtain ⟨hstart, hsame, hxa, hap, haq, hgap, hexp, hnew, hpO, hqM⟩ := inv
      rw [groupAux_add_some]
      refine ih.2 x _ ⟨?_, ?_, ?_, ?_, ?_, ?_, ?_, ?_, ?_, ?_⟩ (Or.inr (Or.inl hO))
      · exact hstart
      · exact hsame
      · exact hxa
      · exact hap
      · show h.oldStart - 1 ≤ q + 1; omega
      · exact hgap
      · show hunkExpected _ false = (O.drop (h.oldStart - 1)).take (p - (h.oldStart - 1))
        rw [exp_app_add]; exact hexp
      · show hunkNew _ false = (M.drop (h.oldStart - 1)).take (q + 1 - (h.oldStart - 1))
        rw [new_app_add, hnew,
            show q + 1 - (h.oldStart - 1) = (q - (h.oldStart - 1)) + 1 from by omega,
            slice_ext M (h.oldStart - 1) (q - (h.oldStart - 1)) (by omega),
            show h.oldStart - 1 + (q - (h.oldStart - 1)) = q from by omega]
        rfl
      · show p ≤ O.length; exact hpO
      · show q + 1 ≤ M.length; omega
  | diff p q cs hp hq hne hrest ih =>
    constructor
    · intro x hpq inv
      subst hpq
      obtain ⟨hxp, heq, hpO, hpM, hguard⟩ := inv
      have hxa : x ≤ p - C :=
        guard_bound ⟨ChangeType.remove, p, p⟩ (⟨ChangeType.add, p + 1, p⟩ :: cs)
          hxp (fun hcc => ChangeType.noConfusion hcc) hguard
      have hgapb : (O.drop x).take (p - C - x) = (M.drop x).take (p - C - x) :=
        gap_prefix O M x p _ (by omega) heq
      have hgapm : (O.drop (p - C)).take (p - (p - C)) =
          (M.drop (p - C)).take (p - (p - C)) :=
        gap_suffix O M x p (p - C) hxa (by omega) heq
      have hctx : (List.range' (p - C) (p - (p - C))).map (getLine O) =
          (O.drop (p - C)).take (p - (p - C)) :=
        map_getLine_range O _ _ (by omega)
      rw [groupAux_rm_none, groupAux_add_some]
      refine ih.2 x _ ⟨?_, ?_, ?_, ?_, ?_, ?_, ?_, ?_, ?_, ?_⟩ (Or.inl rfl)
      · show 1 ≤ p - C + 1; omega
      · show p - C + 1 = p - C + 1; rfl
      · show x ≤ p - C; exact hxa
      · show p - C ≤ p + 1; omega
      · show p - C ≤ p + 1; omega
      · show (O.drop x).take (p - C - x) = (M.drop x).take (p - C - x); exact hgapb
      · show hunkExpected _ false = (O.drop (p - C)).take (p + 1 - (p - C))
        rw [exp_app_add, exp_ctxmap_rm, hctx,
            show p + 1 - (p - C) = (p - (p - C)) + 1 from by omega,
            slice_ext O (p - C) (p - (p - C)) (by omega),
            show p - C + (p - (p - C)) = p from by omega]
        rfl
      · show hunkNew _ false = (M.drop (p - C)).take (p + 1 - (p - C))
        rw [new_app_add, new_ctxmap_rm, hctx, hgapm,
            show p + 1 - (p - C) = (p - (p - C)) + 1 from by omega,
            slice_ext M (p - C) (p - (p - C)) (by omega),
            show p - C + (p - (p - C)) = p from by omega]
        rfl
      · show p + 1 ≤ O.length; omega
      · show p + 1 ≤ M.length; omega
    · intro x h inv hbal
      have hpq : p = q := by
        rcases hbal with h1 | h1 | h1
        · exact h1
        · omega
        · omega
      subst hpq
      obtain ⟨hstart, hsame, hxa, hap, haq, hgap, hexp, hnew, hpO, hqM⟩ := inv
      rw [groupAux_rm_some, groupAux_add_some]
      refine ih.2 x _ ⟨?_, ?_, ?_, ?_, ?_, ?_, ?_, ?_, ?_, ?_⟩ (Or.inl rfl)
      · exact hstart
      · exact hsame
      · exact hxa
      · show h.oldStart - 1 ≤ p + 1; omega
      · show h.oldStart - 1 ≤ p + 1; omega
      · exact hgap
      · show hunkExpected _ false = (O.drop (h.oldStart - 1)).take (p + 1 - (h.oldStart - 1))
        rw [exp_app_add, exp_app_rm, hexp,
            show p + 1 - (h.oldStart - 1) = (p - (h.oldStart - 1)) + 1 from by omega,
            slice_ext O (h.oldStart - 1) (p - (h.oldStart - 1)) (by omega),
            show h.oldStart - 1 + (p - (h.oldStart - 1)) = p from by omega]
        rfl
      · show hunkNew _ false = (M.drop (h.oldStart - 1)).take (p + 1 - (h.oldStart - 1))
        rw [new_app_add, new_app_rm, hnew,
            show p + 1 - (h.oldStart - 1) = (p - (h.oldStart - 1)) + 1 from by omega,
            slice_ext M (h.oldStart - 1) (p - (h.oldStart - 1)) (by omega),
            show h.oldStart - 1 + (p - (h.oldStart - 1)) = p from by omega]
        rfl
      · show p + 1 ≤ O.length; omega
      · show p + 1 ≤ M.length; omega

/-- The final size fixup does not change the hunk's lines. -/
theorem fixup_lines (h : DiffHunk) : (fixupHunk h).lines = h.lines := rfl

/-- The final size fixup does not change the hunk's start. -/
theorem fixup_oldStart (h : DiffHunk) : (fixupHunk h).oldStart = h.oldStart := rfl

/-- The final size fixup does not change the expected lines. -/
theorem fixup_exp (h : DiffHunk) (r : Bool) :
    hunkExpected (fixupHunk h) r = hunkExpected h r := rfl

/-- The final size fixup does not change the new lines. -/
theorem fixup_new (h : DiffHunk) (r : Bool) :
    hunkNew (fixupHunk h) r = hunkNew h r := rfl

/-- `Covers` is preserved by the final size fixup. -/
theorem covers_fixup {O M : List Str} :
    ∀ {p q : Nat} {hs : List DiffHunk}, Covers O M p q hs →
      Covers O M p q (hs.map fixupHunk) := by
  intro p q hs hc
  induction hc with
  | nil p q he => exact Covers.nil p q he
  | cons p h hs eLen nLen hstart hps hgap hexp heb hnew hnb rest ih =>
    rw [List.map_cons]
    refine Covers.cons p (fixupHunk h) _ eLen nLen ?_ ?_ ?_ ?_ ?_ ?_ ?_ ?_
    · rw [fixup_oldStart]; exact hstart
    · rw [fixup_oldStart]; exact hps
    · rw [fixup_oldStart]; exact hgap
    · rw [fixup_exp, fixup_oldStart]; exact hexp
    · rw [fixup_oldStart]; exact heb
    · rw [fixup_new, fixup_oldStart]; exact hnew
    · rw [fixup_oldStart]; exact hnb
    · rw [fixup_oldStart]; exact ih

/-- A remove or context line's content appears in the expected lines. -/
theorem content_mem_exp {h : DiffHunk} {l : DiffLine} (hl : l ∈ h.lines)
    (ht : l.type = LineType.remove ∨ l.type = LineType.context) :
    l.content ∈ hunkExpected h false := by
  unfold hunkExpected
  apply List.mem_map_of_mem
  rw [List.mem_filter]
  refine ⟨hl, ?_⟩
  rcases ht with h1 | h1 <;> simp [h1]

/-- An add or context line's content appears in the new lines. -/
theorem content_mem_new {h : DiffHunk} {l : DiffLine} (hl : l ∈ h.lines)
    (ht : l.type = LineType.add ∨ l.type = LineType.context) :
    l.content ∈ hunkNew h false := by
  unfold hunkNew
  apply List.mem_map_of_mem
  rw [List.mem_filter]
  refine ⟨hl, ?_⟩
  rcases ht with h1 | h1 <;> simp [h1]

/-- Every covered hunk's expected lines come from the original and its
new lines from the modified file. -/
theorem covers_mem {O M : List Str} :
    ∀ {p q : Nat} {hs : List DiffHunk}, Covers O M p q hs →
      ∀ h ∈ hs, (∀ c ∈ hunkExpected h false, c ∈ O) ∧
        (∀ c ∈ hunkNew h false, c ∈ M) := by
  intro p q hs hc
  induction hc with
  | nil p q he => intro h hh; cases hh
  | cons p h hs eLen nLen hstart hps hgap hexp heb hnew hnb rest ih =>
    intro h2 hh2
    rcases List.mem_cons.mp hh2 with heq2 | hmem
    · subst heq2
      constructor
      · intro c hc2
        rw [hexp] at hc2
        exact List.mem_of_mem_drop (List.mem_of_mem_take hc2)
      · intro c hc2
        rw [hnew] at hc2
        exact List.mem_of_mem_drop (List.mem_of_mem_take hc2)
    · exact ih h2 hmem

/-! ## Claim C1 -/

/-- Claim C1 (corrected): the generate/apply round trip is exact under
the amended side conditions — the two texts differ (equal texts generate
a header-only patch that `parseDiff` rejects), no original line starts
with `--` and no modified line starts with `++` (such lines format as
`---`/`+++` and are mis-parsed as file headers), and the patch filename
contains no newline.  Then applying the generated diff (context 3,
default apply options) to the original succeeds and writes exactly the
modified text. -/
theorem C1_roundtrip_amended (original modified fn : Str)
    (hfn : '\n' ∉ fn)
    (hdash : ∀ l ∈ splitNl original, sw l (str "--") = false)
    (hplus : ∀ l ∈ splitNl modified, sw l (str "++") = false)
    (hnemod : original ≠ modified) :
    (execute { patch := createUnifiedDiff original modified fn 3 } true
      original).success = true ∧
    (execute { patch := createUnifiedDiff original modified fn 3 } true
      original).written = some modified := by
  have hsc := script_findChanges (splitNl original) (splitNl modified)
  have hOM : splitNl original ≠ splitNl modified := by
    intro hOMeq
    exact hnemod (by rw [← joinNl_splitNl original, ← joinNl_splitNl modified, hOMeq])
  have hex : ∃ c ∈ findChanges (splitNl original) (splitNl modified),
      c.type ≠ ChangeType.same := by
    by_contra hno
    push_neg at hno
    exact hOM (by simpa using script_all_same_imp_eq hsc hno)
  have hG : groupAux (splitNl original) (splitNl modified) 3
      (findChanges (splitNl original) (splitNl modified)) none [] ≠ [] :=
    groupAux_nonempty _ _ 3 _ none (Or.inl hex)
  have hlen : ¬ (findChanges (splitNl original) (splitNl modified)).length = 0 := by
    intro h0
    rw [List.length_eq_zero] at h0
    obtain ⟨c, hc, _⟩ := hex
    rw [h0] at hc
    cases hc
  have hpatch : createUnifiedDiff original modified fn 3 =
      joinNl ((str "--- a/" ++ fn) :: (str "+++ b/" ++ fn) ::
        ((groupIntoHunks (findChanges (splitNl original) (splitNl modified))
          (splitNl original) (splitNl modified) 3).map formatHunk).flatten) := by
    simp only [createUnifiedDiff]
    rw [if_neg hlen]
  have hcov : Covers (splitNl original) (splitNl modified) 0 0
      (groupAux (splitNl original) (splitNl modified) 3
        (findChanges (splitNl original) (splitNl modified)) none []) :=
    (groupAux_covers _ _ 3 hsc).1 0 rfl
      ⟨Nat.le_refl 0, rfl, Nat.zero_le _, Nat.zero_le _, Or.inl rfl⟩
  have hcovf : Covers (splitNl original) (splitNl modified) 0 0
      (groupIntoHunks (findChanges (splitNl original) (splitNl modified))
        (splitNl original) (splitNl modified) 3) := covers_fixup hcov
  have hmem := covers_mem hcovf
  have hnemp : groupIntoHunks (findChanges (splitNl original) (splitNl modified))
      (splitNl original) (splitNl modified) 3 ≠ [] := by
    intro h0
    unfold groupIntoHunks at h0
    exact hG (List.map_eq_nil_iff.mp h0)
  have hnl : ∀ h ∈ groupIntoHunks (findChanges (splitNl original) (splitNl modified))
      (splitNl original) (splitNl modified) 3, ∀ l ∈ h.lines, '\n' ∉ l.content := by
    intro h hh l hl
    cases hlt : l.type with
    | context =>
      exact splitNl_no_newline original _
        ((hmem h hh).1 _ (content_mem_exp hl (Or.inr hlt)))
    | remove =>
      exact splitNl_no_newline original _
        ((hmem h hh).1 _ (content_mem_exp hl (Or.inl hlt)))
    | add =>
      exact splitNl_no_newline modified _
        ((hmem h hh).2 _ (content_mem_new hl (Or.inl hlt)))
  have hrm : ∀ h ∈ groupIntoHunks (findChanges (splitNl original) (splitNl modified))
      (splitNl original) (splitNl modified) 3, ∀ l ∈ h.lines,
      l.type = LineType.remove → sw l.content (str "--") = false := by
    intro h hh l hl ht
    exact hdash _ ((hmem h hh).1 _ (content_mem_exp hl (Or.inl ht)))
  have haddc : ∀ h ∈ groupIntoHunks (findChanges (splitNl original) (splitNl modified))
      (splitNl original) (splitNl modified) 3, ∀ l ∈ h.lines,
      l.type = LineType.add → sw l.content (str "++") = false := by
    intro h hh l hl ht
    exact hplus _ ((hmem h hh).2 _ (content_mem_new hl (Or.inl ht)))
  have hparse := parse_format fn hfn _ hnemp hnl hrm haddc
  rw [← hpatch] at hparse
  cases hpd : parseDiff (createUnifiedDiff original modified fn 3) with
  | none =>
    rw [hpd] at hparse
    exact Option.noConfusion hparse
  | some pd =>
    rw [hpd] at hparse
    have hpdh : pd.hunks =
        groupIntoHunks (findChanges (splitNl original) (splitNl modified))
          (splitNl original) (splitNl modified) 3 := by
      simpa using hparse
    have hcovp : Covers (splitNl original) (splitNl modified) 0 0 pd.hunks := by
      rw [hpdh]; exact hcovf
    have happ : applyLoop false true pd.hunks (splitNl original) =
        (splitNl modified, pd.hunks.length, 0) :=
      applyLoop_covers _ _ true hcovp
    have hexec : execute { patch := createUnifiedDiff original modified fn 3 } true
        original = ⟨true, true, some (joinNl (splitNl modified)), pd.hunks.length, 0⟩ := by
      rw [execute_main _ original pd hpd]
      have e1 : applyLoop
          ({ patch := createUnifiedDiff original modified fn 3 } : ApplyParams).reverse
          ({ patch := createUnifiedDiff original modified fn 3 } : ApplyParams).fuzzy
          pd.hunks (splitNl original) =
          (splitNl modified, pd.hunks.length, 0) := happ
      rw [e1]
      have hcond : ¬(0 < ((splitNl modified, pd.hunks.length, 0) :
          List Str × Nat × Nat).2.2 ∧
          ({ patch := createUnifiedDiff original modified fn 3 } :
            ApplyParams).fuzzy = false) :=
        fun hcp => Nat.lt_irrefl 0 hcp.1
      rw [if_neg hcond]
      rfl
    rw [hexec]
    exact ⟨rfl, by rw [joinNl_splitNl]⟩

/-- Concrete instance of the corrected C1 round trip: `"a"` to `"b"`
with filename `"f"`, all side conditions discharged by evaluation. -/
theorem C1_roundtrip_witness :
    (execute { patch := createUnifiedDiff (str "a") (str "b") (str "f") 3 } true
      (str "a")).success = true ∧
    (execute { patch := createUnifiedDiff (str "a") (str "b") (str "f") 3 } true
      (str "a")).written = some (str "b") :=
  C1_roundtrip_amended (str "a") (str "b") (str "f") (by decide) (by decide)
    (by decide) (by decide)
